import Mathlib

/-!
Verification of the streaming server-side-rendering core
(`packages/server/src/render.rs`) and the `use_hook_did_run` hook
(`packages/hooks/src/use_hook_did_run.rs`).

The Rust code is shallowly embedded: the virtual dom is an opaque
collaborator, so its observable behaviour (which component scopes the
`dioxus_ssr::Renderer` walk visits, which scopes each
`render_suspense_immediate` round reports resolved, the errors accumulated
at the root) is input data, while the logic of `render.rs` itself
(the streaming component callback, the suspense-resolution loop, the
renderer pool and the incremental-cache gateway) is translated function
by function.  The file first gives all definitions, then the theorems.
-/

namespace DioxusSSR

/-! ### Hydration data extraction (`extract_from_suspense_boundary`)

The tree walked by `take_from_scope` / `take_from_vnode`.  Serialized
values are represented by `Nat` identifiers; the concrete payloads are
opaque to the traversal.  `suspendedNodes` is `some` exactly when
`SuspenseContext::downcast_suspense_boundary_from_scope` succeeds *and*
`suspense_boundary.suspended_nodes()` is `some` (the two are only ever
used together in `take_from_scope`).  `asyncRank` records the (irrelevant
to extraction) real-time completion rank of the scope's asynchronous
work; the source never consults it, which is what claim C4 is about. -/

mutual

inductive VScope where
  | mk (own : List Nat) (firstError : Option Nat) (suspendedNodes : OptVNode)
       (rootNode : OptVNode) (asyncRank : Nat)

inductive OptVNode where
  | none
  | some (node : VNode)

inductive VNode where
  | mk (dyns : DynList)

inductive DynList where
  | nil
  | cons (head : DynNode) (tail : DynList)

inductive DynNode where
  | component (mounted : OptVScope)
  | fragment (nodes : VNodeList)
  | element

inductive OptVScope where
  | none
  | some (scope : VScope)

inductive VNodeList where
  | nil
  | cons (head : VNode) (tail : VNodeList)

end

/-- Accessor for the completion rank (the field extraction must ignore). -/
def VScope.rank : VScope → Nat
  | .mk _ _ _ _ r => r

/-- First error held by the scope's error context
(`error_context.errors().first()` in `serialize_errors`). -/
def VScope.errorHead : VScope → Option Nat
  | .mk _ e _ _ _ => e

mutual

/-- Embedding of `take_from_scope`: the scope's own serializable context
entries first (`context.extend(&other)`), then — when the scope is a
suspense boundary with suspended nodes — the suspended subtree, then the
scope's current root node. -/
def takeFromScope : VScope → List Nat
  | .mk own _ sus root _ => own ++ takeFromOptVNode sus ++ takeFromOptVNode root

def takeFromOptVNode : OptVNode → List Nat
  | .none => []
  | .some n => takeFromVNode n

/-- Embedding of `take_from_vnode`: iterate the dynamic nodes in order. -/
def takeFromVNode : VNode → List Nat
  | .mk ds => takeFromDynList ds

def takeFromDynList : DynList → List Nat
  | .nil => []
  | .cons d tl => takeFromDynNode d ++ takeFromDynList tl

/-- Per dynamic node: components recurse into their mounted scope,
fragments into each member, anything else contributes nothing. -/
def takeFromDynNode : DynNode → List Nat
  | .component .none => []
  | .component (.some s) => takeFromScope s
  | .fragment ns => takeFromVNodeList ns
  | .element => []

def takeFromVNodeList : VNodeList → List Nat
  | .nil => []
  | .cons n tl => takeFromVNode n ++ takeFromVNodeList tl

end

/-- Embedding of `extract_from_suspense_boundary`: the error entry
(`serialize_errors`) plus the depth-first entry sequence. -/
def extract_from_suspense_boundary (s : VScope) : Option Nat × List Nat :=
  (s.errorHead, takeFromScope s)

mutual

/-- Erase the asynchronous completion ranks everywhere; two trees with the
same erasure have the same shape and the same payloads, and differ only in
the order the underlying asynchronous work happened to finish. -/
def stripScope : VScope → VScope
  | .mk own e sus root _ => .mk own e (stripOptVNode sus) (stripOptVNode root) 0

def stripOptVNode : OptVNode → OptVNode
  | .none => .none
  | .some n => .some (stripVNode n)

def stripVNode : VNode → VNode
  | .mk ds => .mk (stripDynList ds)

def stripDynList : DynList → DynList
  | .nil => .nil
  | .cons d tl => .cons (stripDynNode d) (stripDynList tl)

def stripDynNode : DynNode → DynNode
  | .component .none => .component .none
  | .component (.some s) => .component (.some (stripScope s))
  | .fragment ns => .fragment (stripVNodeList ns)
  | .element => .element

def stripVNodeList : VNodeList → VNodeList
  | .nil => .nil
  | .cons n tl => .cons (stripVNode n) (stripVNodeList tl)

end

/-- A scope whose suspended work finished first (rank 0). -/
def scopeFastAsync : VScope :=
  .mk [10, 11] (Option.some 7)
    (.some (.mk (.cons (.component (.some (.mk [20] Option.none .none .none 5)))
      (.cons (.fragment (.cons (.mk (.cons .element .nil)) .nil)) .nil))))
    (.some (.mk (.cons (.component (.some (.mk [30] Option.none .none .none 6))) .nil)))
    0

/-- The same tree shape, with the asynchronous work finishing in the
reversed real-time order (different ranks everywhere). -/
def scopeSlowAsync : VScope :=
  .mk [10, 11] (Option.some 7)
    (.some (.mk (.cons (.component (.some (.mk [20] Option.none .none .none 1)))
      (.cons (.fragment (.cons (.mk (.cons .element .nil)) .nil)) .nil))))
    (.some (.mk (.cons (.component (.some (.mk [30] Option.none .none .none 0))) .nil)))
    9

/-! ### The streaming render session (`SsrRendererPool::render_to`)

Observable events of one render session.  `placeholder s m` is the
placeholder markup for suspense-boundary scope `s` written around mount
handle `m` (`StreamingRenderer::render_placeholder`); `registered s m` is
the insertion of `s` into the scope→mount registry; `inlineRender s` is a
non-boundary scope rendered directly; `attributed c p` records `c` being
pushed onto the `children` list of the registry entry of `p`;
`errorBoundary s` is `start_capturing_errors(s)`
(`provide_error_boundary`); `replaced m s` is the `replace_placeholder`
chunk for mount `m` emitted when `s` resolved; `frozen s` is
`suspense.freeze()`. -/

inductive Ev where
  | placeholder (scope mount : Nat)
  | registered (scope mount : Nat)
  | inlineRender (scope : Nat)
  | attributed (child parent : Nat)
  | errorBoundary (scope : Nat)
  | replaced (mount scope : Nat)
  | frozen (scope : Nat)
deriving DecidableEq

/-- One pending suspense boundary (`PendingSuspenseBoundary` in the
source): the mount handle of its placeholder and the child boundaries
attributed to it while it was rendered. -/
structure PendingSuspenseBoundary where
  mount : Nat
  children : List Nat
deriving DecidableEq

/-- The scope→mount registry (`HashMap<ScopeId, PendingSuspenseBoundary>`),
as an association list.  Only `get`, `insert`, `remove` and `get_mut` are
performed on the real map, so the representation order is unobservable. -/
abbrev ScopeMap := List (Nat × PendingSuspenseBoundary)

def lookupM : ScopeMap → Nat → Option PendingSuspenseBoundary
  | [], _ => Option.none
  | (k, v) :: tl, s => if k = s then Option.some v else lookupM tl s

def eraseM (m : ScopeMap) (s : Nat) : ScopeMap :=
  m.filter (fun kv => kv.1 != s)

def insertM (m : ScopeMap) (s : Nat) (v : PendingSuspenseBoundary) : ScopeMap :=
  eraseM m s ++ [(s, v)]

/-- The `get_mut(parent).unwrap()` update: push `c` onto the children list
of the entry of `p`. -/
def pushChild (m : ScopeMap) (p c : Nat) : ScopeMap :=
  m.map (fun kv => if kv.1 = p then (kv.1, ⟨kv.2.mount, kv.2.children ++ [c]⟩) else kv)

/-- Session state threaded through the render: the registry, the next
fresh mount handle of the streaming renderer (modelled from the spec:
`render_placeholder` "allocates a new mount identifier"), and the trace of
events so far. -/
structure SessState where
  mapping : ScopeMap
  nextMount : Nat
  trace : List Ev
deriving DecidableEq

def initState : SessState := ⟨[], 0, []⟩

mutual

/-- The component scopes visited by `Renderer::render_scope`: an `STree`
node is one invocation of the component callback (scope id, whether the
scope is a suspense boundary that currently has suspended tasks, and the
component scopes nested in the markup it renders). -/
inductive STree where
  | node (id : Nat) (isBoundary : Bool) (kids : SForest)

inductive SForest where
  | nil
  | cons (hd : STree) (tl : SForest)

end

mutual

def treeIds : STree → List Nat
  | .node i _ kids => i :: forestIds kids

def forestIds : SForest → List Nat
  | .nil => []
  | .cons t ts => treeIds t ++ forestIds ts

end

mutual

/-- Embedding of `streaming_render_component_callback`
(`render.rs:418-480`).  A suspense-boundary scope: allocate a mount and
write the placeholder (pushing the scope on the nesting stack around the
recursive render of its markup), then insert the scope into the registry,
then — with the stack as it was on entry — either push the scope onto the
children of the stack's top (`get_mut(parent).unwrap()`: `none` models
the panic of the `unwrap` when the parent has no registry entry) or, with
an empty stack, immediately `start_capturing_errors`.  A non-boundary
scope renders inline.  The source pushes and pops the stack around each
boundary, so it is threaded as a parameter here. -/
def walkTree (stack : List Nat) : STree → SessState → Option SessState
  | .node id isB kids, σ =>
    if isB then
      match walkForest (id :: stack) kids
          ⟨σ.mapping, σ.nextMount + 1, σ.trace ++ [.placeholder id σ.nextMount]⟩ with
      | Option.none => Option.none
      | Option.some σ2 =>
        match stack with
        | [] =>
            Option.some ⟨insertM σ2.mapping id ⟨σ.nextMount, []⟩, σ2.nextMount,
              (σ2.trace ++ [.registered id σ.nextMount]) ++ [.errorBoundary id]⟩
        | p :: _ =>
          match lookupM (insertM σ2.mapping id ⟨σ.nextMount, []⟩) p with
          | Option.none => Option.none
          | Option.some _ =>
              Option.some ⟨pushChild (insertM σ2.mapping id ⟨σ.nextMount, []⟩) p id,
                σ2.nextMount,
                (σ2.trace ++ [.registered id σ.nextMount]) ++ [.attributed id p]⟩
    else
      walkForest stack kids ⟨σ.mapping, σ.nextMount, σ.trace ++ [.inlineRender id]⟩

def walkForest (stack : List Nat) : SForest → SessState → Option SessState
  | .nil, σ => Option.some σ
  | .cons t ts, σ =>
    match walkTree stack t σ with
    | Option.none => Option.none
    | Option.some σ2 => walkForest stack ts σ2

end

/-- One scope reported resolved by `render_suspense_immediate`:
`stillBoundary` is whether
`SuspenseContext::downcast_suspense_boundary_from_scope` still succeeds at
freeze time, and `content` are the component scopes visited when the
resolved subtree is re-rendered. -/
structure ResolvedEntry where
  scope : Nat
  stillBoundary : Bool
  content : SForest

/-- Embedding of the body of the resolution loop (`render.rs:318-359`):
remove the scope from the registry; if it had no entry skip it; otherwise
re-render its subtree into the replacement chunk (with the component
callback still installed), emit the `replace_placeholder` chunk for its
mount, then freeze the boundary and start capturing errors on each
recorded child boundary. -/
def doResolved (e : ResolvedEntry) (σ : SessState) : Option SessState :=
  match lookupM σ.mapping e.scope with
  | Option.none => Option.some σ
  | Option.some pb =>
    match walkForest [] e.content ⟨eraseM σ.mapping e.scope, σ.nextMount, σ.trace⟩ with
    | Option.none => Option.none
    | Option.some σ2 =>
      if e.stillBoundary then
        Option.some ⟨σ2.mapping, σ2.nextMount,
          ((σ2.trace ++ [.replaced pb.mount e.scope]) ++ [.frozen e.scope]) ++
            pb.children.map Ev.errorBoundary⟩
      else
        Option.some ⟨σ2.mapping, σ2.nextMount, σ2.trace ++ [.replaced pb.mount e.scope]⟩

/-- The `while suspended_tasks_remaining` loop: the scopes reported
resolved, in order.  Batch boundaries of the inner `for` loop carry no
state, so the rounds are flattened into one sequence. -/
def doEntries : List ResolvedEntry → SessState → Option SessState
  | [], σ => Option.some σ
  | e :: tl, σ =>
    match doResolved e σ with
    | Option.none => Option.none
    | Option.some σ2 => doEntries tl σ2

/-- One error accumulated at the root (`ScopeId::APP`'s `ErrorContext`);
`isRouting` is whether `err.downcast::<ParseRouteError>()` succeeds. -/
structure RenderErr where
  isRouting : Bool
  msg : String
deriving DecidableEq

/-- Errors surfaced by `render_to` before any chunk (`enum SSRError`). -/
inductive SSRError where
  | Incremental (msg : String)
  | Routing (msg : String)
deriving DecidableEq

/-- The classification `errors.iter().find_map(|err| err.downcast().cloned())`:
the first root error that downcasts to a routing error. -/
def findRoutingError (errs : List RenderErr) : Option String :=
  errs.findSome? fun e => if e.isRouting then Option.some e.msg else Option.none

/-- The `ErrorWhileRendering` message: all root errors concatenated, each
followed by a newline. -/
def concatErrors (errs : List RenderErr) : String :=
  errs.foldl (fun acc e => acc ++ e.msg ++ "\n") ""

/-- Everything the virtual-dom collaborator feeds one session: the root
errors visible after the initial build / suspense wait, the component
scopes of the initial frame, and the resolved-scope reports of the
suspense-resolution loop. -/
structure SessionInput where
  rootErrors : List RenderErr
  initialForest : SForest
  resolved : List ResolvedEntry

/-- Result of `create_render_future`: the two failure classifications
sent over the initial-result channel (before any chunk), a model-level
panic (`unwrap` failure in the component callback), or completion with the
final session state. -/
inductive SessionResult where
  | failedRouting (msg : String)
  | failedRendering (msg : String)
  | panicked
  | completed (final : SessState)
deriving DecidableEq

/-- Embedding of `create_render_future` (`render.rs:189-393`).  The
suspense wait (lines 216-240) emits nothing and is not observable here.
Then: if the root error context is non-empty the session fails — routing
if any error downcasts to a routing error, rendering otherwise — before
anything is sent into the chunk channel.  Otherwise the initial frame is
rendered with the streaming component callback and the resolution loop
runs. -/
def runSession (inp : SessionInput) : SessionResult :=
  if inp.rootErrors.isEmpty then
    match walkForest [] inp.initialForest initState with
    | Option.none => .panicked
    | Option.some σ1 =>
      match doEntries inp.resolved σ1 with
      | Option.none => .panicked
      | Option.some σf => .completed σf
  else
    match findRoutingError inp.rootErrors with
    | Option.some msg => .failedRouting msg
    | Option.none => .failedRendering (concatErrors inp.rootErrors)

/-- Chunks sent into the session's output channel, in order.  Modelled
from the spec for the streaming renderer: the head fragment, the initial
frame (placeholders plus post-main markup), one chunk per
`replace_placeholder`, and the after-body fragment. -/
inductive Chunk where
  | cachedBody (body : String)
  | head
  | initialFrame
  | resolvedChunk (mount scope : Nat)
  | post
deriving DecidableEq

def sessionChunks (σf : SessState) : List Chunk :=
  Chunk.head :: Chunk.initialFrame ::
    ((σf.trace.filterMap fun e =>
      match e with
      | .replaced m s => Option.some (Chunk.resolvedChunk m s)
      | _ => Option.none) ++ [Chunk.post])

/-- Freshness returned with a render (`RenderFreshness`): the stored
freshness of a cache hit, or `RenderFreshness::now(None)`. -/
inductive Freshness where
  | cached (stored : Nat)
  | now
deriving DecidableEq

inductive RenderOutcome where
  | failed (e : SSRError)
  | ok (freshness : Freshness)
deriving DecidableEq

/-- Observable result of `SsrRendererPool::render_to`: the returned value,
the chunks pushed into the stream, the renderer pool after the call, and
bookkeeping flags (was the virtual-dom factory invoked, was a background
task spawned, which pooled renderer was used, was an incremental-cache
entry stored). -/
structure RenderToResult where
  outcome : RenderOutcome
  chunks : List Chunk
  poolAfter : List Nat
  factoryInvoked : Bool
  taskSpawned : Bool
  rendererUsed : Option Nat
  cacheWritten : Bool
deriving DecidableEq

/-- Embedding of `check_cached_route`: the incremental cache is an opaque
key/value collaborator, so its answer for the requested route is input
data — `Option.none` when no incremental cache is configured, `some
Option.none` on a miss (a `get` error is logged and treated as a miss),
`some (some (freshness, body))` on a non-expired hit.  Cached bodies are
stored from `String`s, so the `String::from_utf8` of the source always
succeeds here. -/
def check_cached_route : Option (Option (Nat × String)) → Option (Nat × String)
  | Option.some (Option.some entry) => Option.some entry
  | _ => Option.none

/-- Embedding of `SsrRendererPool::render_to` (`render.rs:119-411`).  On a
cache hit the cached body is pushed synchronously as the sole chunk and
the stored freshness returned — no renderer popped, no factory invoked, no
task spawned.  On a miss, a renderer is popped from the pool
(`Vec::pop`, the last one) or freshly constructed (`pre_renderer`), the
session future is spawned, and the session's failure or completion decides
the returned value; the renderer is pushed back only when the future runs
to completion. -/
def render_to (pool : List Nat) (cacheCfg : Option (Option (Nat × String)))
    (inp : SessionInput) (freshRenderer : Nat) : RenderToResult :=
  match check_cached_route cacheCfg with
  | Option.some (f, body) =>
      ⟨.ok (.cached f), [Chunk.cachedBody body], pool, false, false, Option.none, false⟩
  | Option.none =>
    let r := (pool.getLast?).getD freshRenderer
    let poolDuring := pool.dropLast
    match runSession inp with
    | .failedRouting msg =>
        ⟨.failed (.Routing msg), [], poolDuring, true, true, Option.some r, false⟩
    | .failedRendering msg =>
        ⟨.failed (.Incremental msg), [], poolDuring, true, true, Option.some r, false⟩
    | .panicked =>
        ⟨.failed (.Incremental "initial result channel closed"), [], poolDuring, true, true,
          Option.some r, false⟩
    | .completed σf =>
        ⟨.ok .now, sessionChunks σf, poolDuring ++ [r], true, true, Option.some r,
          cacheCfg.isSome⟩

/-- The session states at chunk boundaries: after the initial frame and
after each resolved-scope report. -/
def epochsFrom : List ResolvedEntry → SessState → List SessState
  | [], σ => [σ]
  | e :: tl, σ =>
    σ :: (match doResolved e σ with
      | Option.none => []
      | Option.some σ2 => epochsFrom tl σ2)

def sessionEpochs (inp : SessionInput) : List SessState :=
  match walkForest [] inp.initialForest initState with
  | Option.none => []
  | Option.some σ1 => epochsFrom inp.resolved σ1

/-- The trace of the initial frame alone. -/
def initialFrameTrace (inp : SessionInput) : List Ev :=
  match walkForest [] inp.initialForest initState with
  | Option.none => []
  | Option.some σ1 => σ1.trace

/-! ### Counting events -/

def cnt (p : Ev → Bool) (tr : List Ev) : Nat := (tr.filter p).length

def isPh (s : Nat) : Ev → Bool
  | .placeholder s2 _ => s2 == s
  | _ => false

def isReg (s : Nat) : Ev → Bool
  | .registered s2 _ => s2 == s
  | _ => false

def isRep (s : Nat) : Ev → Bool
  | .replaced _ s2 => s2 == s
  | _ => false

def isInl (s : Nat) : Ev → Bool
  | .inlineRender s2 => s2 == s
  | _ => false

def isRepMount (m : Nat) : Ev → Bool
  | .replaced m2 _ => m2 == m
  | _ => false

def phC (tr : List Ev) (s : Nat) : Nat := cnt (isPh s) tr
def regC (tr : List Ev) (s : Nat) : Nat := cnt (isReg s) tr
def repC (tr : List Ev) (s : Nat) : Nat := cnt (isRep s) tr
def inlC (tr : List Ev) (s : Nat) : Nat := cnt (isInl s) tr
def repMountC (tr : List Ev) (m : Nat) : Nat := cnt (isRepMount m) tr

/-- Scope `s` has not been rendered in any form yet. -/
def NoEvents (tr : List Ev) (s : Nat) : Prop :=
  phC tr s = 0 ∧ regC tr s = 0 ∧ repC tr s = 0 ∧ inlC tr s = 0

/-- The scope a render-type event renders, if any. -/
def renderScope? : Ev → Option Nat
  | .placeholder s _ => Option.some s
  | .registered s _ => Option.some s
  | .inlineRender s => Option.some s
  | .replaced _ s => Option.some s
  | _ => Option.none

/-! ### Trace and state invariants -/

/-- What must already hold of the trace when each event is appended. -/
def GoodStep (tr : List Ev) : Ev → Prop
  | .placeholder s _ => NoEvents tr s
  | .registered s m => Ev.placeholder s m ∈ tr ∧ regC tr s = 0 ∧ repC tr s = 0
  | .inlineRender s => NoEvents tr s
  | .attributed _ p => regC tr p = 1 ∧ repC tr p = 0
  | .replaced m s => Ev.registered s m ∈ tr ∧ repC tr s = 0
  | .frozen s => ∃ m, Ev.replaced m s ∈ tr
  | .errorBoundary _ => True

inductive GoodTrace : List Ev → Prop where
  | nil : GoodTrace []
  | snoc {tr : List Ev} {e : Ev} : GoodTrace tr → GoodStep tr e → GoodTrace (tr ++ [e])

/-- State invariant of a session, relative to a set `X` of scopes whose
registry entry is currently detached (the scope being resolved, between
its `remove` and its replacement chunk).  `memIff` is the registry
invariant: an entry exists iff the scope's placeholder has been written
(and it registered) but not yet replaced. -/
structure Inv (X : List Nat) (σ : SessState) : Prop where
  good : GoodTrace σ.trace
  nodupKeys : (σ.mapping.map Prod.fst).Nodup
  memIff : ∀ s, s ∉ X →
    ((lookupM σ.mapping s).isSome ↔ (regC σ.trace s = 1 ∧ repC σ.trace s = 0))
  mountReg : ∀ s pb, lookupM σ.mapping s = Option.some pb →
    Ev.registered s pb.mount ∈ σ.trace
  childIff : ∀ s pb, lookupM σ.mapping s = Option.some pb →
    ∀ c, (c ∈ pb.children ↔ Ev.attributed c s ∈ σ.trace)
  phBound : ∀ s m, Ev.placeholder s m ∈ σ.trace → m < σ.nextMount
  phInj : ∀ s t m, Ev.placeholder s m ∈ σ.trace → Ev.placeholder t m ∈ σ.trace → s = t

/-- Postcondition of a callback walk over `ids` (the scopes it visits). -/
def WalkPost (X stack ids : List Nat) (σ σ2 : SessState) : Prop :=
  Inv X σ2 ∧
  σ.nextMount ≤ σ2.nextMount ∧
  (∃ Δ, σ2.trace = σ.trace ++ Δ ∧
    (∀ m s, Ev.replaced m s ∉ Δ) ∧
    (∀ s, Ev.frozen s ∉ Δ) ∧
    (∀ c p, Ev.attributed c p ∈ Δ → p ∈ ids ∨ p ∈ stack) ∧
    (∀ s m, Ev.placeholder s m ∈ Δ → s ∈ ids) ∧
    (∀ s m, Ev.registered s m ∈ Δ → s ∈ ids) ∧
    (∀ s, Ev.inlineRender s ∈ Δ → s ∈ ids)) ∧
  (∀ s, s ∉ ids →
    ((lookupM σ2.mapping s).isSome = (lookupM σ.mapping s).isSome ∧
      (lookupM σ2.mapping s).map PendingSuspenseBoundary.mount =
        (lookupM σ.mapping s).map PendingSuspenseBoundary.mount))

/-- Every placeholder written between two states has its registration by
the later state (a boundary registers itself as soon as its placeholder
markup is complete). -/
def PhReg (σ σ2 : SessState) : Prop :=
  ∀ s m, Ev.placeholder s m ∈ σ2.trace →
    Ev.registered s m ∈ σ2.trace ∨ Ev.placeholder s m ∈ σ.trace

/-- Postcondition of one resolution report. -/
def ResolvedPost (e : ResolvedEntry) (σ σ2 : SessState) : Prop :=
  Inv [] σ2 ∧
  σ.nextMount ≤ σ2.nextMount ∧
  PhReg σ σ2 ∧
  (∃ Δ, σ2.trace = σ.trace ++ Δ ∧
    (∀ m s, Ev.replaced m s ∈ Δ → s = e.scope ∧ regC σ.trace s = 1) ∧
    (∀ s, Ev.frozen s ∈ Δ → s = e.scope) ∧
    (∀ s m, Ev.placeholder s m ∈ Δ → s ∈ forestIds e.content) ∧
    (∀ s m, Ev.registered s m ∈ Δ → s ∈ forestIds e.content) ∧
    (∀ s, Ev.inlineRender s ∈ Δ → s ∈ forestIds e.content) ∧
    (∀ c p, Ev.attributed c p ∈ Δ → p ∈ forestIds e.content) ∧
    (∀ m s, Ev.replaced m s ∈ Δ → e.stillBoundary = true → Ev.frozen s ∈ σ2.trace) ∧
    (∀ s, Ev.frozen s ∈ Δ →
      ∃ A B m, σ2.trace = A ++ Ev.replaced m s :: B ∧
        ∀ c, Ev.attributed c s ∈ A → Ev.errorBoundary c ∈ σ2.trace)) ∧
  (∀ pb, lookupM σ.mapping e.scope = Option.some pb → e.stillBoundary = true →
    Ev.frozen e.scope ∈ σ2.trace ∧ ∀ c ∈ pb.children, Ev.errorBoundary c ∈ σ2.trace)

/-- Scope ids rendered by the remaining resolution reports. -/
def entriesIds : List ResolvedEntry → List Nat
  | [] => []
  | e :: tl => forestIds e.content ++ entriesIds tl

/-- Session invariant between resolution reports: the state invariant
holds (with no detached scope) and the scopes still to be rendered are
fresh. -/
def PendingOK (σ : SessState) (es : List ResolvedEntry) : Prop :=
  Inv [] σ ∧ (entriesIds es).Nodup ∧ ∀ s ∈ entriesIds es, NoEvents σ.trace s

/-- All scope ids a session input ever renders are distinct — scope ids
are unique within one virtual dom, and a subtree re-rendered on
resolution consists of scopes that were hidden (not rendered) until that
moment. -/
def WellFormed (inp : SessionInput) : Prop :=
  (forestIds inp.initialForest ++ entriesIds inp.resolved).Nodup

/-- Witness session: one root suspense boundary (scope 1) that resolves in
the first report. -/
def sampleInput : SessionInput :=
  ⟨[], .cons (.node 1 true .nil) .nil, [⟨1, true, .nil⟩]⟩

/-- The final state the witness session reaches. -/
def sampleFinal : SessState :=
  ⟨[], 1, [.placeholder 1 0, .registered 1 0, .errorBoundary 1, .replaced 0 1, .frozen 1]⟩

/-- A session whose root error context holds a routing error. -/
def routingErrInput : SessionInput :=
  ⟨[⟨true, "no route matched"⟩], .nil, []⟩

/-- A session whose root error context holds a non-routing error. -/
def renderErrInput : SessionInput :=
  ⟨[⟨false, "render failed"⟩], .nil, []⟩

/-- An initial frame in which a suspense boundary (scope 2) sits inside the
placeholder subtree of another suspense boundary (scope 1). -/
def nestedBoundaryForest : SForest :=
  .cons (.node 1 true (.cons (.node 2 true .nil) .nil)) .nil

def nestedBoundaryInput : SessionInput :=
  ⟨[], nestedBoundaryForest, []⟩

end DioxusSSR

namespace DioxusHooks

/-! ### The `use_hook_did_run` hook

Modelled from the spec: the scope lifecycle provided by the core runtime
(`dioxus_core`, not part of the rendered sources) runs every callback
registered through `use_before_render` before each render of the
component, then the component body (which executes the hook statements it
reaches), then every callback registered through `use_after_render`.
`CopyValue` is a mutable cell owned by the scope.  The three operations
below are the bodies registered by `use_hook_did_run`
(`packages/hooks/src/use_hook_did_run.rs`, lines 11, 14 and 17). -/

structure LifecycleScope where
  cell : Bool
  handlerCalls : List Bool
deriving DecidableEq

/-- The `use_before_render` callback: `did_run_.set(false)`. -/
def beforeRender (s : LifecycleScope) : LifecycleScope :=
  { s with cell := false }

/-- The hook statement in the component body: `did_run_.set(true)`. -/
def hookBody (s : LifecycleScope) : LifecycleScope :=
  { s with cell := true }

/-- The `use_after_render` callback: `handler(did_run_())` — the handler
observes the current cell value. -/
def afterRender (s : LifecycleScope) : LifecycleScope :=
  { s with handlerCalls := s.handlerCalls ++ [s.cell] }

/-- One render of the component: before-render callbacks, then the body
(the hook statement executes exactly when the body reaches it), then
after-render callbacks. -/
def renderOnce (s : LifecycleScope) (bodyRuns : Bool) : LifecycleScope :=
  afterRender (if bodyRuns then hookBody (beforeRender s) else beforeRender s)

/-- A whole sequence of renders; `bs` records, per render, whether the
hook body executed. -/
def renderSequence (s : LifecycleScope) (bs : List Bool) : LifecycleScope :=
  bs.foldl renderOnce s

end DioxusHooks

/-! ## Theorems -/

namespace DioxusSSR

mutual

theorem takeFromScope_strip : (s : VScope) →
    takeFromScope (stripScope s) = takeFromScope s
  | .mk own e sus root r => by
      simp [stripScope, takeFromScope, takeFromOptVNode_strip sus,
        takeFromOptVNode_strip root]

theorem takeFromOptVNode_strip : (o : OptVNode) →
    takeFromOptVNode (stripOptVNode o) = takeFromOptVNode o
  | .none => rfl
  | .some n => by
      simp [stripOptVNode, takeFromOptVNode, takeFromVNode_strip n]

theorem takeFromVNode_strip : (n : VNode) →
    takeFromVNode (stripVNode n) = takeFromVNode n
  | .mk ds => by
      simp [stripVNode, takeFromVNode, takeFromDynList_strip ds]

theorem takeFromDynList_strip : (ds : DynList) →
    takeFromDynList (stripDynList ds) = takeFromDynList ds
  | .nil => rfl
  | .cons d tl => by
      simp [stripDynList, takeFromDynList, takeFromDynNode_strip d,
        takeFromDynList_strip tl]

theorem takeFromDynNode_strip : (d : DynNode) →
    takeFromDynNode (stripDynNode d) = takeFromDynNode d
  | .component .none => rfl
  | .component (.some s) => by
      simp [stripDynNode, takeFromDynNode, takeFromScope_strip s]
  | .fragment ns => by
      simp [stripDynNode, takeFromDynNode, takeFromVNodeList_strip ns]
  | .element => rfl

theorem takeFromVNodeList_strip : (ns : VNodeList) →
    takeFromVNodeList (stripVNodeList ns) = takeFromVNodeList ns
  | .nil => rfl
  | .cons n tl => by
      simp [stripVNodeList, takeFromVNodeList, takeFromVNode_strip n,
        takeFromVNodeList_strip tl]

end

theorem errorHead_strip (s : VScope) : (stripScope s).errorHead = s.errorHead := by
  cases s with
  | mk own e sus root r => rfl

/-- C4: `extract_from_suspense_boundary` produces its entries in a
deterministic depth-first order fixed by the tree shape alone: two
extractions over the same shape (trees equal after erasing the completion
order of the asynchronous work) yield the same entry sequence; for a
suspense-boundary scope the suspended subtree is visited before the
currently rendered subtree; components recurse into their mounted scope
and fragments into each member node. -/
theorem extract_deterministic_depth_first :
    (∀ s t : VScope, stripScope s = stripScope t →
        extract_from_suspense_boundary s = extract_from_suspense_boundary t) ∧
    (∀ (own : List Nat) (e : Option Nat) (sus : VNode) (root : OptVNode) (r : Nat),
        takeFromScope (VScope.mk own e (OptVNode.some sus) root r) =
          own ++ takeFromVNode sus ++ takeFromOptVNode root) ∧
    (∀ s : VScope, takeFromDynNode (DynNode.component (OptVScope.some s)) =
        takeFromScope s) ∧
    (∀ n tl, takeFromVNodeList (VNodeList.cons n tl) =
        takeFromVNode n ++ takeFromVNodeList tl) := by
  refine ⟨?_, ?_, ?_, ?_⟩
  · intro s t h
    unfold extract_from_suspense_boundary
    rw [← takeFromScope_strip s, ← takeFromScope_strip t, ← errorHead_strip s,
      ← errorHead_strip t, h]
  · intro own e sus root r
    simp [takeFromScope, takeFromOptVNode]
  · intro s
    rfl
  · intro n tl
    rfl

theorem extract_deterministic_depth_first_witness :
    stripScope scopeFastAsync = stripScope scopeSlowAsync ∧
      extract_from_suspense_boundary scopeFastAsync =
        extract_from_suspense_boundary scopeSlowAsync :=
  ⟨rfl, extract_deterministic_depth_first.1 scopeFastAsync scopeSlowAsync rfl⟩

end DioxusSSR

namespace DioxusHooks

theorem renderOnce_handlerCalls (s : LifecycleScope) (b : Bool) :
    (renderOnce s b).handlerCalls = s.handlerCalls ++ [b] := by
  cases b <;> simp [renderOnce, beforeRender, hookBody, afterRender]

/-- C10: after each render the handler is invoked with `true` exactly when
the hook body executed during that render: over any sequence of renders
the list of handler arguments equals the list of body-execution flags. -/
theorem use_hook_did_run_reports_body_execution (c0 : Bool) (bs : List Bool) :
    (renderSequence ⟨c0, []⟩ bs).handlerCalls = bs := by
  suffices h : ∀ (s : LifecycleScope) (bs : List Bool),
      (renderSequence s bs).handlerCalls = s.handlerCalls ++ bs by
    simpa using h ⟨c0, []⟩ bs
  intro s bs
  induction bs generalizing s with
  | nil => simp [renderSequence]
  | cons b tl ih =>
      simp [renderSequence] at ih ⊢
      rw [ih, renderOnce_handlerCalls]
      simp

end DioxusHooks


namespace DioxusSSR

/-! ### Counting lemmas -/

theorem cnt_append (p : Ev → Bool) (a b : List Ev) :
    cnt p (a ++ b) = cnt p a + cnt p b := by
  simp [cnt, List.filter_append]

theorem cnt_nil (p : Ev → Bool) : cnt p [] = 0 := rfl

theorem cnt_singleton (p : Ev → Bool) (e : Ev) :
    cnt p [e] = if p e then 1 else 0 := by
  by_cases h : p e <;> simp [cnt, List.filter, h]

theorem cnt_eq_zero_iff (p : Ev → Bool) (tr : List Ev) :
    cnt p tr = 0 ↔ ∀ e ∈ tr, p e = false := by
  induction tr with
  | nil => simp [cnt]
  | cons h tl ih =>
      by_cases hp : p h <;>
        simp [cnt, List.filter, hp] at ih ⊢

theorem cnt_pos_of_mem {p : Ev → Bool} {tr : List Ev} {e : Ev}
    (hm : e ∈ tr) (hp : p e = true) : 0 < cnt p tr := by
  rcases Nat.eq_zero_or_pos (cnt p tr) with h | h
  · exact absurd hp (by simpa using (cnt_eq_zero_iff p tr).1 h e hm)
  · exact h

theorem cnt_pos_iff {p : Ev → Bool} {tr : List Ev} :
    0 < cnt p tr ↔ ∃ e ∈ tr, p e = true := by
  constructor
  · intro h
    by_contra hc
    push_neg at hc
    have : cnt p tr = 0 := (cnt_eq_zero_iff p tr).2 (by
      intro e he
      have := hc e he
      simpa using this)
    omega
  · rintro ⟨e, he, hp⟩
    exact cnt_pos_of_mem he hp

theorem two_mem_le_length {α : Type} {l : List α} {x y : α}
    (hx : x ∈ l) (hy : y ∈ l) (hxy : x ≠ y) : 2 ≤ l.length := by
  induction l with
  | nil => simp at hx
  | cons h tl ih =>
      rcases List.mem_cons.1 hx with rfl | hx2
      · rcases List.mem_cons.1 hy with rfl | hy2
        · exact absurd rfl hxy
        · have := List.length_pos.2 (List.ne_nil_of_mem hy2)
          simp only [List.length_cons]
          omega
      · rcases List.mem_cons.1 hy with rfl | hy2
        · have := List.length_pos.2 (List.ne_nil_of_mem hx2)
          simp only [List.length_cons]
          omega
        · have := ih hx2 hy2
          simp only [List.length_cons]
          omega

theorem two_le_cnt {p : Ev → Bool} {tr : List Ev} {e1 e2 : Ev}
    (h1 : e1 ∈ tr) (h2 : e2 ∈ tr) (hne : e1 ≠ e2)
    (hp1 : p e1 = true) (hp2 : p e2 = true) : 2 ≤ cnt p tr :=
  two_mem_le_length (List.mem_filter.2 ⟨h1, hp1⟩) (List.mem_filter.2 ⟨h2, hp2⟩) hne

theorem isPh_true_iff (s : Nat) (e : Ev) :
    isPh s e = true ↔ ∃ m, e = Ev.placeholder s m := by
  cases e <;> simp [isPh]

theorem isReg_true_iff (s : Nat) (e : Ev) :
    isReg s e = true ↔ ∃ m, e = Ev.registered s m := by
  cases e <;> simp [isReg]

theorem isRep_true_iff (s : Nat) (e : Ev) :
    isRep s e = true ↔ ∃ m, e = Ev.replaced m s := by
  cases e <;> simp [isRep]

theorem isInl_true_iff (s : Nat) (e : Ev) :
    isInl s e = true ↔ e = Ev.inlineRender s := by
  cases e <;> simp [isInl]

theorem isRepMount_true_iff (m : Nat) (e : Ev) :
    isRepMount m e = true ↔ ∃ s, e = Ev.replaced m s := by
  cases e <;> simp [isRepMount]

theorem phC_pos_iff {tr : List Ev} {s : Nat} :
    0 < phC tr s ↔ ∃ m, Ev.placeholder s m ∈ tr := by
  unfold phC
  rw [cnt_pos_iff]
  constructor
  · rintro ⟨e, he, hp⟩
    rcases (isPh_true_iff s e).1 hp with ⟨m, rfl⟩
    exact ⟨m, he⟩
  · rintro ⟨m, hm⟩
    exact ⟨_, hm, (isPh_true_iff s _).2 ⟨m, rfl⟩⟩

theorem regC_pos_iff {tr : List Ev} {s : Nat} :
    0 < regC tr s ↔ ∃ m, Ev.registered s m ∈ tr := by
  unfold regC
  rw [cnt_pos_iff]
  constructor
  · rintro ⟨e, he, hp⟩
    rcases (isReg_true_iff s e).1 hp with ⟨m, rfl⟩
    exact ⟨m, he⟩
  · rintro ⟨m, hm⟩
    exact ⟨_, hm, (isReg_true_iff s _).2 ⟨m, rfl⟩⟩

theorem repC_pos_iff {tr : List Ev} {s : Nat} :
    0 < repC tr s ↔ ∃ m, Ev.replaced m s ∈ tr := by
  unfold repC
  rw [cnt_pos_iff]
  constructor
  · rintro ⟨e, he, hp⟩
    rcases (isRep_true_iff s e).1 hp with ⟨m, rfl⟩
    exact ⟨m, he⟩
  · rintro ⟨m, hm⟩
    exact ⟨_, hm, (isRep_true_iff s _).2 ⟨m, rfl⟩⟩

theorem inlC_pos_iff {tr : List Ev} {s : Nat} :
    0 < inlC tr s ↔ Ev.inlineRender s ∈ tr := by
  unfold inlC
  rw [cnt_pos_iff]
  constructor
  · rintro ⟨e, he, hp⟩
    rcases (isInl_true_iff s e).1 hp with rfl
    exact he
  · intro hm
    exact ⟨_, hm, (isInl_true_iff s _).2 rfl⟩

theorem repC_eq_zero_iff {tr : List Ev} {s : Nat} :
    repC tr s = 0 ↔ ∀ m, Ev.replaced m s ∉ tr := by
  constructor
  · intro h m hm
    have := cnt_pos_of_mem hm ((isRep_true_iff s _).2 ⟨m, rfl⟩)
    unfold repC at h
    omega
  · intro h
    by_contra hc
    have hpos : 0 < repC tr s := Nat.pos_of_ne_zero hc
    rcases repC_pos_iff.1 hpos with ⟨m, hm⟩
    exact h m hm

theorem regC_eq_zero_iff {tr : List Ev} {s : Nat} :
    regC tr s = 0 ↔ ∀ m, Ev.registered s m ∉ tr := by
  constructor
  · intro h m hm
    have := cnt_pos_of_mem hm ((isReg_true_iff s _).2 ⟨m, rfl⟩)
    unfold regC at h
    omega
  · intro h
    by_contra hc
    have hpos : 0 < regC tr s := Nat.pos_of_ne_zero hc
    rcases regC_pos_iff.1 hpos with ⟨m, hm⟩
    exact h m hm

theorem phC_eq_zero_iff {tr : List Ev} {s : Nat} :
    phC tr s = 0 ↔ ∀ m, Ev.placeholder s m ∉ tr := by
  constructor
  · intro h m hm
    have := cnt_pos_of_mem hm ((isPh_true_iff s _).2 ⟨m, rfl⟩)
    unfold phC at h
    omega
  · intro h
    by_contra hc
    have hpos : 0 < phC tr s := Nat.pos_of_ne_zero hc
    rcases phC_pos_iff.1 hpos with ⟨m, hm⟩
    exact h m hm

theorem inlC_eq_zero_iff {tr : List Ev} {s : Nat} :
    inlC tr s = 0 ↔ Ev.inlineRender s ∉ tr := by
  constructor
  · intro h hm
    have := cnt_pos_of_mem hm ((isInl_true_iff s _).2 rfl)
    unfold inlC at h
    omega
  · intro h
    by_contra hc
    have hpos : 0 < inlC tr s := Nat.pos_of_ne_zero hc
    exact h (inlC_pos_iff.1 hpos)

end DioxusSSR

namespace DioxusSSR

/-! ### Registry (association list) lemmas -/

theorem lookupM_append (a b : ScopeMap) (t : Nat) :
    lookupM (a ++ b) t =
      (match lookupM a t with
        | Option.some v => Option.some v
        | Option.none => lookupM b t) := by
  induction a with
  | nil => simp [lookupM]
  | cons kv tl ih =>
      obtain ⟨k, v⟩ := kv
      by_cases h : k = t <;> simp [lookupM, h, ih]

theorem lookupM_eraseM (m : ScopeMap) (s t : Nat) :
    lookupM (eraseM m s) t = if s = t then Option.none else lookupM m t := by
  induction m with
  | nil => simp [eraseM, lookupM]
  | cons kv tl ih =>
      obtain ⟨k, v⟩ := kv
      by_cases hks : k = s
      · subst hks
        by_cases hkt : k = t
        · subst hkt
          simp [eraseM, lookupM] at ih ⊢
          simp [ih]
        · simp [eraseM, lookupM, hkt] at ih ⊢
          simpa [hkt] using ih
      · by_cases hkt : k = t
        · subst hkt
          simp [eraseM, lookupM, bne, hks] at ih ⊢
          intro hst
          omega
        · simp [eraseM, lookupM, bne, hks, hkt] at ih ⊢
          exact ih

theorem lookupM_insertM (m : ScopeMap) (s : Nat) (v : PendingSuspenseBoundary) (t : Nat) :
    lookupM (insertM m s v) t =
      if s = t then Option.some v else lookupM m t := by
  unfold insertM
  rw [lookupM_append, lookupM_eraseM]
  by_cases h : s = t
  · simp [h, lookupM]
  · cases hmt : lookupM m t <;> simp [h, hmt, lookupM]

theorem lookupM_pushChild (m : ScopeMap) (p c t : Nat) :
    lookupM (pushChild m p c) t =
      if p = t then (lookupM m t).map (fun pb => ⟨pb.mount, pb.children ++ [c]⟩)
      else lookupM m t := by
  induction m with
  | nil => by_cases h : p = t <;> simp [pushChild, lookupM, h]
  | cons kv tl ih =>
      obtain ⟨k, v⟩ := kv
      have hdc : pushChild ((k, v) :: tl) p c =
          (if k = p then (k, ⟨v.mount, v.children ++ [c]⟩) else (k, v)) :: pushChild tl p c := by
        by_cases h : k = p <;> simp [pushChild, h]
      rw [hdc]
      by_cases hkp : k = p
      · subst hkp
        simp only [if_pos rfl]
        by_cases hkt : k = t
        · subst hkt
          simp [lookupM]
        · have hpt : ¬ k = t := hkt
          simp [lookupM, hkt, ih, hpt]
      · simp only [if_neg hkp]
        by_cases hkt : k = t
        · subst hkt
          have hpt : ¬ p = k := fun h2 => hkp h2.symm
          simp [lookupM, hpt]
        · simp [lookupM, hkt, ih]

theorem keys_eraseM (m : ScopeMap) (s : Nat) :
    (eraseM m s).map Prod.fst = (m.map Prod.fst).filter (fun k => k != s) := by
  induction m with
  | nil => simp [eraseM]
  | cons kv tl ih =>
      obtain ⟨k, v⟩ := kv
      simp only [eraseM, List.filter_cons, List.map_cons] at ih ⊢
      by_cases h : k = s
      · subst h
        simpa using ih
      · simpa [h] using ih

theorem keys_pushChild (m : ScopeMap) (p c : Nat) :
    (pushChild m p c).map Prod.fst = m.map Prod.fst := by
  induction m with
  | nil => simp [pushChild]
  | cons kv tl ih =>
      obtain ⟨k, v⟩ := kv
      by_cases h : k = p <;> simp [pushChild, h] at ih ⊢ <;> exact ih

theorem nodupKeys_eraseM {m : ScopeMap} (h : (m.map Prod.fst).Nodup) (s : Nat) :
    ((eraseM m s).map Prod.fst).Nodup := by
  rw [keys_eraseM]
  exact h.filter _

theorem not_mem_keys_eraseM (m : ScopeMap) (s : Nat) :
    s ∉ (eraseM m s).map Prod.fst := by
  rw [keys_eraseM]
  intro hmem
  have := List.of_mem_filter hmem
  simp at this

theorem nodupKeys_insertM {m : ScopeMap} (h : (m.map Prod.fst).Nodup)
    (s : Nat) (v : PendingSuspenseBoundary) :
    ((insertM m s v).map Prod.fst).Nodup := by
  unfold insertM
  rw [List.map_append]
  simp only [List.map_cons, List.map_nil]
  rw [List.nodup_append]
  refine ⟨nodupKeys_eraseM h s, List.nodup_singleton s, ?_⟩
  intro a ha hb
  simp at hb
  subst hb
  exact not_mem_keys_eraseM m _ ha

theorem nodupKeys_pushChild {m : ScopeMap} (h : (m.map Prod.fst).Nodup) (p c : Nat) :
    ((pushChild m p c).map Prod.fst).Nodup := by
  rw [keys_pushChild]
  exact h

end DioxusSSR

namespace DioxusSSR

/-! ### GoodTrace lemmas -/

theorem goodTrace_split {tr : List Ev} (h : GoodTrace tr) :
    ∀ a e b, tr = a ++ e :: b → GoodTrace a ∧ GoodStep a e := by
  induction h with
  | nil =>
      intro a e b hab
      exact absurd hab (by simp)
  | snoc hg hs ih =>
      rename_i tr2 x
      intro a e b hab
      rcases List.eq_nil_or_concat b with rfl | ⟨b2, y, rfl⟩
      · obtain ⟨rfl, he⟩ := List.append_inj' hab (by simp)
        have he2 : x = e := by simpa using he
        subst he2
        exact ⟨hg, hs⟩
      · rw [List.concat_eq_append, ← List.cons_append, ← List.append_assoc] at hab
        obtain ⟨h1, h2⟩ := List.append_inj' hab (by simp)
        exact ih a e b2 h1

theorem goodTrace_snoc_list {tr : List Ev} (h : GoodTrace tr) (cs : List Nat)
    (f : Nat → Ev) (hf : ∀ tr2 c, GoodStep tr2 (f c)) :
    GoodTrace (tr ++ cs.map f) := by
  induction cs generalizing tr with
  | nil => simpa using h
  | cons c tl ih =>
      have h2 : GoodTrace (tr ++ [f c]) := GoodTrace.snoc h (hf tr c)
      simpa using ih h2

theorem cnt_prefix_le (p : Ev → Bool) (a b : List Ev) :
    cnt p a ≤ cnt p (a ++ b) := by
  rw [cnt_append]
  omega

theorem good_phC_le_one {tr : List Ev} (h : GoodTrace tr) (s : Nat) :
    phC tr s ≤ 1 := by
  induction h with
  | nil => simp [phC, cnt]
  | snoc hg hs ih =>
      rename_i tr2 e
      unfold phC at ih ⊢
      rw [cnt_append, cnt_singleton]
      cases e with
      | placeholder s2 m =>
          by_cases hss : s2 = s
          · subst hss
            have h0 : phC tr2 s2 = 0 := hs.1
            unfold phC at h0
            simp [isPh, h0]
          · simp [isPh, hss]
            exact ih
      | registered s2 m => simpa [isPh] using ih
      | inlineRender s2 => simpa [isPh] using ih
      | attributed c p2 => simpa [isPh] using ih
      | errorBoundary s2 => simpa [isPh] using ih
      | replaced m s2 => simpa [isPh] using ih
      | frozen s2 => simpa [isPh] using ih

theorem good_regC_le_one {tr : List Ev} (h : GoodTrace tr) (s : Nat) :
    regC tr s ≤ 1 := by
  induction h with
  | nil => simp [regC, cnt]
  | snoc hg hs ih =>
      rename_i tr2 e
      unfold regC at ih ⊢
      rw [cnt_append, cnt_singleton]
      cases e with
      | registered s2 m =>
          by_cases hss : s2 = s
          · subst hss
            have h0 : regC tr2 s2 = 0 := hs.2.1
            unfold regC at h0
            simp [isReg, h0]
          · simp [isReg, hss]
            exact ih
      | placeholder s2 m => simpa [isReg] using ih
      | inlineRender s2 => simpa [isReg] using ih
      | attributed c p2 => simpa [isReg] using ih
      | errorBoundary s2 => simpa [isReg] using ih
      | replaced m s2 => simpa [isReg] using ih
      | frozen s2 => simpa [isReg] using ih

theorem good_repC_le_one {tr : List Ev} (h : GoodTrace tr) (s : Nat) :
    repC tr s ≤ 1 := by
  induction h with
  | nil => simp [repC, cnt]
  | snoc hg hs ih =>
      rename_i tr2 e
      unfold repC at ih ⊢
      rw [cnt_append, cnt_singleton]
      cases e with
      | replaced m s2 =>
          by_cases hss : s2 = s
          · subst hss
            have h0 : repC tr2 s2 = 0 := hs.2
            unfold repC at h0
            simp [isRep, h0]
          · simp [isRep, hss]
            exact ih
      | placeholder s2 m => simpa [isRep] using ih
      | inlineRender s2 => simpa [isRep] using ih
      | attributed c p2 => simpa [isRep] using ih
      | errorBoundary s2 => simpa [isRep] using ih
      | registered s2 m => simpa [isRep] using ih
      | frozen s2 => simpa [isRep] using ih

theorem good_reg_unique {tr : List Ev} (h : GoodTrace tr) {s m m2 : Nat}
    (h1 : Ev.registered s m ∈ tr) (h2 : Ev.registered s m2 ∈ tr) : m = m2 := by
  by_contra hne
  have : 2 ≤ regC tr s := by
    unfold regC
    exact two_le_cnt h1 h2 (by simp [hne])
      ((isReg_true_iff s _).2 ⟨m, rfl⟩) ((isReg_true_iff s _).2 ⟨m2, rfl⟩)
  have := good_regC_le_one h s
  omega

theorem good_ph_of_reg {tr : List Ev} (h : GoodTrace tr) {s m : Nat}
    (hm : Ev.registered s m ∈ tr) : Ev.placeholder s m ∈ tr := by
  rcases List.append_of_mem hm with ⟨a, b, rfl⟩
  have := (goodTrace_split h a _ b rfl).2
  have hph : Ev.placeholder s m ∈ a := this.1
  exact List.mem_append.2 (Or.inl hph)

theorem good_reg_of_rep {tr : List Ev} (h : GoodTrace tr) {s m : Nat}
    (hm : Ev.replaced m s ∈ tr) : Ev.registered s m ∈ tr := by
  rcases List.append_of_mem hm with ⟨a, b, rfl⟩
  have := (goodTrace_split h a _ b rfl).2
  have hreg : Ev.registered s m ∈ a := this.1
  exact List.mem_append.2 (Or.inl hreg)

theorem good_no_attr_of_reg_zero {tr : List Ev} (h : GoodTrace tr) {s c : Nat}
    (h0 : regC tr s = 0) : Ev.attributed c s ∉ tr := by
  intro hm
  rcases List.append_of_mem hm with ⟨a, b, rfl⟩
  have hstep := (goodTrace_split h a _ b rfl).2
  have h1 : regC a s = 1 := hstep.1
  have : regC a s ≤ regC (a ++ Ev.attributed c s :: b) s := by
    have := cnt_prefix_le (isReg s) a (Ev.attributed c s :: b)
    simpa [regC] using this
  omega

/-- After a replacement chunk for scope `s`, the trace never renders `s` 
again in any form, and never attributes another child to `s`. -/
theorem good_after_rep {tr : List Ev} (h : GoodTrace tr) {a b : List Ev} {s m : Nat}
    (hsplit : tr = a ++ Ev.replaced m s :: b) :
    (∀ m2, Ev.replaced m2 s ∉ b) ∧ (∀ m2, Ev.placeholder s m2 ∉ b) ∧
      (∀ m2, Ev.registered s m2 ∉ b) ∧ Ev.inlineRender s ∉ b ∧
      (∀ c, Ev.attributed c s ∉ b) := by
  have hmidstep : ∀ (e : Ev), e ∈ b → ∃ pre, GoodStep pre e ∧ Ev.replaced m s ∈ pre := by
    intro e hm
    rcases List.append_of_mem hm with ⟨b1, b2, hb⟩
    subst hb
    refine ⟨a ++ Ev.replaced m s :: b1, ?_, by simp⟩
    have hsp2 : tr = (a ++ Ev.replaced m s :: b1) ++ e :: b2 := by
      rw [hsplit]
      simp
    exact (goodTrace_split h _ _ _ hsp2).2
  have hrep0 : ∀ pre : List Ev, Ev.replaced m s ∈ pre → repC pre s = 0 → False := by
    intro pre hmem h0
    have := cnt_pos_of_mem hmem ((isRep_true_iff s _).2 ⟨m, rfl⟩)
    unfold repC at h0
    omega
  refine ⟨?_, ?_, ?_, ?_, ?_⟩
  · intro m2 hm
    obtain ⟨pre, hstep, hx⟩ := hmidstep _ hm
    have hs2 : Ev.registered s m2 ∈ pre ∧ repC pre s = 0 := hstep
    exact hrep0 pre hx hs2.2
  · intro m2 hm
    obtain ⟨pre, hstep, hx⟩ := hmidstep _ hm
    have hs2 : NoEvents pre s := hstep
    exact hrep0 pre hx hs2.2.2.1
  · intro m2 hm
    obtain ⟨pre, hstep, hx⟩ := hmidstep _ hm
    have hs2 : Ev.placeholder s m2 ∈ pre ∧ regC pre s = 0 ∧ repC pre s = 0 := hstep
    exact hrep0 pre hx hs2.2.2
  · intro hm
    obtain ⟨pre, hstep, hx⟩ := hmidstep _ hm
    have hs2 : NoEvents pre s := hstep
    exact hrep0 pre hx hs2.2.2.1
  · intro c hm
    obtain ⟨pre, hstep, hx⟩ := hmidstep _ hm
    have hs2 : regC pre s = 1 ∧ repC pre s = 0 := hstep
    exact hrep0 pre hx hs2.2

end DioxusSSR

namespace DioxusSSR

/-! ### Count bookkeeping over appends -/

theorem phC_append (a b : List Ev) (s : Nat) :
    phC (a ++ b) s = phC a s + phC b s := cnt_append _ a b

theorem regC_append (a b : List Ev) (s : Nat) :
    regC (a ++ b) s = regC a s + regC b s := cnt_append _ a b

theorem repC_append (a b : List Ev) (s : Nat) :
    repC (a ++ b) s = repC a s + repC b s := cnt_append _ a b

theorem inlC_append (a b : List Ev) (s : Nat) :
    inlC (a ++ b) s = inlC a s + inlC b s := cnt_append _ a b

theorem repMountC_append (a b : List Ev) (m : Nat) :
    repMountC (a ++ b) m = repMountC a m + repMountC b m := cnt_append _ a b

theorem counts_delta_zero {Δ : List Ev} {ids : List Nat}
    (hph : ∀ s m, Ev.placeholder s m ∈ Δ → s ∈ ids)
    (hreg : ∀ s m, Ev.registered s m ∈ Δ → s ∈ ids)
    (hinl : ∀ s, Ev.inlineRender s ∈ Δ → s ∈ ids)
    (hrep : ∀ m s, Ev.replaced m s ∉ Δ)
    {s : Nat} (hs : s ∉ ids) :
    phC Δ s = 0 ∧ regC Δ s = 0 ∧ repC Δ s = 0 ∧ inlC Δ s = 0 := by
  refine ⟨?_, ?_, ?_, ?_⟩
  · exact phC_eq_zero_iff.2 fun m hm => hs (hph s m hm)
  · exact regC_eq_zero_iff.2 fun m hm => hs (hreg s m hm)
  · exact repC_eq_zero_iff.2 fun m hm => hrep m s hm
  · exact inlC_eq_zero_iff.2 fun hm => hs (hinl s hm)

theorem noEvents_append {a b : List Ev} {s : Nat}
    (ha : NoEvents a s) (hb : NoEvents b s) : NoEvents (a ++ b) s := by
  obtain ⟨h1, h2, h3, h4⟩ := ha
  obtain ⟨k1, k2, k3, k4⟩ := hb
  exact ⟨by rw [phC_append]; omega, by rw [regC_append]; omega,
    by rw [repC_append]; omega, by rw [inlC_append]; omega⟩

/-! ### Invariant preservation: the individual callback actions -/

theorem inv_placeholder_step {X : List Nat} {σ : SessState} {s : Nat}
    (h : Inv X σ) (hfresh : NoEvents σ.trace s) :
    Inv X ⟨σ.mapping, σ.nextMount + 1, σ.trace ++ [.placeholder s σ.nextMount]⟩ := by
  obtain ⟨hg, hnd, hmem, hmr, hci, hpb, hpi⟩ := h
  refine ⟨GoodTrace.snoc hg hfresh, hnd, ?_, ?_, ?_, ?_, ?_⟩
  · intro t htX
    have := hmem t htX
    simpa [regC, repC, cnt_append, cnt_singleton, isReg, isRep] using this
  · intro t pb hl
    exact List.mem_append.2 (Or.inl (hmr t pb hl))
  · intro t pb hl c
    rw [hci t pb hl c]
    simp
  · intro t m hm
    rcases List.mem_append.1 hm with hm2 | hm2
    · have := hpb t m hm2
      simp only []
      omega
    · simp at hm2
      obtain ⟨rfl, rfl⟩ := hm2
      simp
  · intro t u m hm1 hm2
    rcases List.mem_append.1 hm1 with h1 | h1 <;> rcases List.mem_append.1 hm2 with h2 | h2
    · exact hpi t u m h1 h2
    · simp at h2
      obtain ⟨rfl, rfl⟩ := h2
      have := hpb t _ h1
      omega
    · simp at h1
      obtain ⟨rfl, rfl⟩ := h1
      have := hpb u _ h2
      omega
    · simp at h1 h2
      obtain ⟨rfl, rfl⟩ := h1
      obtain ⟨rfl, h2b⟩ := h2
      rfl

theorem inv_registered_step {X : List Nat} {σ : SessState} {s m : Nat}
    (h : Inv X σ) (hph : Ev.placeholder s m ∈ σ.trace)
    (hreg0 : regC σ.trace s = 0) (hrep0 : repC σ.trace s = 0) :
    Inv X ⟨insertM σ.mapping s ⟨m, []⟩, σ.nextMount, σ.trace ++ [.registered s m]⟩ := by
  obtain ⟨hg, hnd, hmem, hmr, hci, hpb, hpi⟩ := h
  have hstep : GoodStep σ.trace (.registered s m) := ⟨hph, hreg0, hrep0⟩
  refine ⟨GoodTrace.snoc hg hstep, nodupKeys_insertM hnd s _, ?_, ?_, ?_, ?_, ?_⟩
  · intro t htX
    rw [lookupM_insertM]
    by_cases hts : s = t
    · subst hts
      simp only [if_pos rfl, Option.isSome_some, true_iff]
      unfold regC at hreg0
      unfold repC at hrep0
      unfold regC repC
      rw [cnt_append, cnt_singleton, cnt_append, cnt_singleton]
      simp [isReg, isRep]
      omega
    · have := hmem t htX
      simp only [if_neg hts]
      simpa [regC, repC, cnt_append, cnt_singleton, isReg, isRep, hts] using this
  · intro t pb hl
    rw [lookupM_insertM] at hl
    by_cases hts : s = t
    · subst hts
      simp at hl
      subst hl
      simp
    · rw [if_neg hts] at hl
      exact List.mem_append.2 (Or.inl (hmr t pb hl))
  · intro t pb hl c
    rw [lookupM_insertM] at hl
    by_cases hts : s = t
    · subst hts
      simp at hl
      subst hl
      simp only [List.mem_append]
      constructor
      · intro hc
        simp at hc
      · intro hc
        rcases hc with hc | hc
        · exact absurd hc (good_no_attr_of_reg_zero hg hreg0)
        · simp at hc
    · rw [if_neg hts] at hl
      rw [hci t pb hl c]
      constructor
      · intro hc
        exact List.mem_append.2 (Or.inl hc)
      · intro hc
        rcases List.mem_append.1 hc with hc2 | hc2
        · exact hc2
        · simp at hc2
  · intro t m2 hm
    rcases List.mem_append.1 hm with hm2 | hm2
    · exact hpb t m2 hm2
    · simp at hm2
  · intro t u m2 hm1 hm2
    have h1 : Ev.placeholder t m2 ∈ σ.trace := by
      rcases List.mem_append.1 hm1 with h2 | h2
      · exact h2
      · simp at h2
    have h2 : Ev.placeholder u m2 ∈ σ.trace := by
      rcases List.mem_append.1 hm2 with h3 | h3
      · exact h3
      · simp at h3
    exact hpi t u m2 h1 h2

theorem inv_errorBoundary_step {X : List Nat} {σ : SessState} {s : Nat}
    (h : Inv X σ) :
    Inv X ⟨σ.mapping, σ.nextMount, σ.trace ++ [.errorBoundary s]⟩ := by
  obtain ⟨hg, hnd, hmem, hmr, hci, hpb, hpi⟩ := h
  refine ⟨GoodTrace.snoc hg trivial, hnd, ?_, ?_, ?_, ?_, ?_⟩
  · intro t htX
    have := hmem t htX
    simpa [regC, repC, cnt_append, cnt_singleton, isReg, isRep] using this
  · intro t pb hl
    exact List.mem_append.2 (Or.inl (hmr t pb hl))
  · intro t pb hl c
    rw [hci t pb hl c]
    simp
  · intro t m hm
    rcases List.mem_append.1 hm with hm2 | hm2
    · exact hpb t m hm2
    · simp at hm2
  · intro t u m hm1 hm2
    have h1 : Ev.placeholder t m ∈ σ.trace := by
      rcases List.mem_append.1 hm1 with h2 | h2
      · exact h2
      · simp at h2
    have h2 : Ev.placeholder u m ∈ σ.trace := by
      rcases List.mem_append.1 hm2 with h3 | h3
      · exact h3
      · simp at h3
    exact hpi t u m h1 h2

theorem inv_inline_step {X : List Nat} {σ : SessState} {s : Nat}
    (h : Inv X σ) (hfresh : NoEvents σ.trace s) :
    Inv X ⟨σ.mapping, σ.nextMount, σ.trace ++ [.inlineRender s]⟩ := by
  obtain ⟨hg, hnd, hmem, hmr, hci, hpb, hpi⟩ := h
  refine ⟨GoodTrace.snoc hg hfresh, hnd, ?_, ?_, ?_, ?_, ?_⟩
  · intro t htX
    have := hmem t htX
    simpa [regC, repC, cnt_append, cnt_singleton, isReg, isRep] using this
  · intro t pb hl
    exact List.mem_append.2 (Or.inl (hmr t pb hl))
  · intro t pb hl c
    rw [hci t pb hl c]
    simp
  · intro t m hm
    rcases List.mem_append.1 hm with hm2 | hm2
    · exact hpb t m hm2
    · simp at hm2
  · intro t u m hm1 hm2
    have h1 : Ev.placeholder t m ∈ σ.trace := by
      rcases List.mem_append.1 hm1 with h2 | h2
      · exact h2
      · simp at h2
    have h2 : Ev.placeholder u m ∈ σ.trace := by
      rcases List.mem_append.1 hm2 with h3 | h3
      · exact h3
      · simp at h3
    exact hpi t u m h1 h2

theorem inv_attributed_step {X : List Nat} {σ : SessState} {p c : Nat} {pb : PendingSuspenseBoundary}
    (h : Inv X σ) (hl : lookupM σ.mapping p = Option.some pb) (hpX : p ∉ X) :
    Inv X ⟨pushChild σ.mapping p c, σ.nextMount, σ.trace ++ [.attributed c p]⟩ := by
  obtain ⟨hg, hnd, hmem, hmr, hci, hpb, hpi⟩ := h
  have hsome : (lookupM σ.mapping p).isSome := by
    rw [hl]
    rfl
  have hcounts := (hmem p hpX).1 hsome
  have hstep : GoodStep σ.trace (.attributed c p) := hcounts
  refine ⟨GoodTrace.snoc hg hstep, nodupKeys_pushChild hnd p c, ?_, ?_, ?_, ?_, ?_⟩
  · intro t htX
    rw [lookupM_pushChild]
    have hbase := hmem t htX
    by_cases hpt : p = t
    · subst hpt
      rw [if_pos rfl, hl]
      obtain ⟨hc1, hc2⟩ := hcounts
      unfold regC at hc1
      unfold repC at hc2
      simp [regC, repC, cnt_append, cnt_singleton, isReg, isRep, hc1, hc2]
    · simp only [if_neg hpt]
      simpa [regC, repC, cnt_append, cnt_singleton, isReg, isRep] using hbase
  · intro t pb2 hl2
    rw [lookupM_pushChild] at hl2
    by_cases hpt : p = t
    · subst hpt
      rw [if_pos rfl, hl] at hl2
      simp at hl2
      subst hl2
      exact List.mem_append.2 (Or.inl (hmr p pb hl))
    · rw [if_neg hpt] at hl2
      exact List.mem_append.2 (Or.inl (hmr t pb2 hl2))
  · intro t pb2 hl2 c2
    rw [lookupM_pushChild] at hl2
    by_cases hpt : p = t
    · subst hpt
      rw [if_pos rfl, hl] at hl2
      simp at hl2
      subst hl2
      simp only [List.mem_append]
      constructor
      · intro hc
        rcases hc with hc2 | hc2
        · exact Or.inl ((hci p pb hl c2).1 hc2)
        · simp at hc2
          subst hc2
          exact Or.inr (by simp)
      · intro hc
        rcases hc with hc2 | hc2
        · exact Or.inl ((hci p pb hl c2).2 hc2)
        · simp at hc2
          subst hc2
          exact Or.inr (by simp)
    · rw [if_neg hpt] at hl2
      rw [hci t pb2 hl2 c2]
      constructor
      · intro hc
        exact List.mem_append.2 (Or.inl hc)
      · intro hc
        rcases List.mem_append.1 hc with hc2 | hc2
        · exact hc2
        · simp at hc2
          obtain ⟨rfl, rfl⟩ := hc2
          exact absurd rfl hpt
  · intro t m hm
    rcases List.mem_append.1 hm with hm2 | hm2
    · exact hpb t m hm2
    · simp at hm2
  · intro t u m hm1 hm2
    have h1 : Ev.placeholder t m ∈ σ.trace := by
      rcases List.mem_append.1 hm1 with h2 | h2
      · exact h2
      · simp at h2
    have h2 : Ev.placeholder u m ∈ σ.trace := by
      rcases List.mem_append.1 hm2 with h3 | h3
      · exact h3
      · simp at h3
    exact hpi t u m h1 h2

end DioxusSSR

namespace DioxusSSR

/-! ### Composing walk postconditions -/

theorem noEvents_singleton (e : Ev) (s : Nat) (h : renderScope? e ≠ Option.some s) :
    NoEvents [e] s := by
  unfold NoEvents phC regC repC inlC
  rw [cnt_singleton, cnt_singleton, cnt_singleton, cnt_singleton]
  cases e <;> simp_all [renderScope?, isPh, isReg, isRep, isInl]

theorem noEvents_of_delta {Δ : List Ev} {ids : List Nat} {s : Nat} {tr : List Ev}
    (hph : ∀ u m, Ev.placeholder u m ∈ Δ → u ∈ ids)
    (hreg : ∀ u m, Ev.registered u m ∈ Δ → u ∈ ids)
    (hinl : ∀ u, Ev.inlineRender u ∈ Δ → u ∈ ids)
    (hrep : ∀ m u, Ev.replaced m u ∉ Δ)
    (hs : s ∉ ids) (hbase : NoEvents tr s) : NoEvents (tr ++ Δ) s := by
  obtain ⟨d1, d2, d3, d4⟩ := counts_delta_zero hph hreg hinl hrep hs
  exact noEvents_append hbase ⟨d1, d2, d3, d4⟩

theorem WalkPost_comp {X stack ids1 ids2 : List Nat} {σ σ1 σ2 : SessState}
    (h1 : WalkPost X stack ids1 σ σ1) (h2 : WalkPost X stack ids2 σ1 σ2) :
    WalkPost X stack (ids1 ++ ids2) σ σ2 := by
  obtain ⟨hI1, hm1, ⟨Δ1, hΔ1, hr1, hf1, ha1, hp1, hg1, hi1⟩, hfr1⟩ := h1
  obtain ⟨hI2, hm2, ⟨Δ2, hΔ2, hr2, hf2, ha2, hp2, hg2, hi2⟩, hfr2⟩ := h2
  refine ⟨hI2, le_trans hm1 hm2, ⟨Δ1 ++ Δ2, ?_, ?_, ?_, ?_, ?_, ?_, ?_⟩, ?_⟩
  · rw [hΔ2, hΔ1, List.append_assoc]
  · intro m s hm
    rcases List.mem_append.1 hm with h | h
    · exact hr1 m s h
    · exact hr2 m s h
  · intro s hm
    rcases List.mem_append.1 hm with h | h
    · exact hf1 s h
    · exact hf2 s h
  · intro c p hm
    rcases List.mem_append.1 hm with h | h
    · rcases ha1 c p h with h3 | h3
      · exact Or.inl (List.mem_append.2 (Or.inl h3))
      · exact Or.inr h3
    · rcases ha2 c p h with h3 | h3
      · exact Or.inl (List.mem_append.2 (Or.inr h3))
      · exact Or.inr h3
  · intro u m hm
    rcases List.mem_append.1 hm with h | h
    · exact List.mem_append.2 (Or.inl (hp1 u m h))
    · exact List.mem_append.2 (Or.inr (hp2 u m h))
  · intro u m hm
    rcases List.mem_append.1 hm with h | h
    · exact List.mem_append.2 (Or.inl (hg1 u m h))
    · exact List.mem_append.2 (Or.inr (hg2 u m h))
  · intro u hm
    rcases List.mem_append.1 hm with h | h
    · exact List.mem_append.2 (Or.inl (hi1 u h))
    · exact List.mem_append.2 (Or.inr (hi2 u h))
  · intro u hu
    have hu1 : u ∉ ids1 := fun h => hu (List.mem_append.2 (Or.inl h))
    have hu2 : u ∉ ids2 := fun h => hu (List.mem_append.2 (Or.inr h))
    obtain ⟨e1, e2⟩ := hfr1 u hu1
    obtain ⟨e3, e4⟩ := hfr2 u hu2
    exact ⟨e3.trans e1, e4.trans e2⟩

end DioxusSSR

namespace DioxusSSR

theorem PhReg_comp {σ σ1 σ2 : SessState} (h1 : PhReg σ σ1) (h2 : PhReg σ1 σ2)
    (hpre : ∃ Δ, σ2.trace = σ1.trace ++ Δ) : PhReg σ σ2 := by
  intro s m hm
  rcases h2 s m hm with h | h
  · exact Or.inl h
  · rcases h1 s m h with h3 | h3
    · obtain ⟨Δ, hΔ⟩ := hpre
      refine Or.inl ?_
      rw [hΔ]
      exact List.mem_append.2 (Or.inl h3)
    · exact Or.inr h3

theorem PhReg_refl (σ : SessState) : PhReg σ σ := by
  intro s m hm
  exact Or.inr hm

theorem WalkPost_mono {X stackA stackB idsA idsB : List Nat} {σ σ2 : SessState}
    (h : WalkPost X stackA idsA σ σ2)
    (hids : ∀ u ∈ idsA, u ∈ idsB)
    (hstack : ∀ p ∈ stackA, p ∈ idsB ∨ p ∈ stackB) :
    WalkPost X stackB idsB σ σ2 := by
  obtain ⟨hI, hm, ⟨Δ, hΔ, hr, hf, ha, hp, hg, hi⟩, hfr⟩ := h
  refine ⟨hI, hm, ⟨Δ, hΔ, hr, hf, ?_, ?_, ?_, ?_⟩, ?_⟩
  · intro c p hmem
    rcases ha c p hmem with h2 | h2
    · exact Or.inl (hids p h2)
    · exact hstack p h2
  · intro u m hmem
    exact hids u (hp u m hmem)
  · intro u m hmem
    exact hids u (hg u m hmem)
  · intro u hmem
    exact hids u (hi u hmem)
  · intro u hu
    exact hfr u (fun h2 => hu (hids u h2))

theorem WalkPost_refl {X stack : List Nat} (ids : List Nat) {σ : SessState} (hI : Inv X σ) :
    WalkPost X stack ids σ σ := by
  refine ⟨hI, le_refl _, ⟨[], by simp, by simp, by simp, by simp, by simp, by simp, by simp⟩, ?_⟩
  intro u _
  exact ⟨rfl, rfl⟩

end DioxusSSR

namespace DioxusSSR

/-! ### The walk specification -/

mutual

theorem walkTree_spec (X : List Nat) : (t : STree) → ∀ (stack : List Nat) (σ σf : SessState),
    Inv X σ → (treeIds t).Nodup → (∀ s ∈ treeIds t, NoEvents σ.trace s) →
    (∀ s ∈ treeIds t, s ∉ X) → (∀ p ∈ stack, p ∉ X) →
    walkTree stack t σ = Option.some σf →
    WalkPost X stack (treeIds t) σ σf ∧ PhReg σ σf
  | .node id isB kids => by
    intro stack σ σf hInv hnd hfresh hXdisj hstackX hrun
    simp only [treeIds] at hnd hfresh hXdisj ⊢
    rw [List.nodup_cons] at hnd
    obtain ⟨hid_nin, hndk⟩ := hnd
    have hfresh_id : NoEvents σ.trace id := hfresh id (List.mem_cons_self _ _)
    have hXid : id ∉ X := hXdisj id (List.mem_cons_self _ _)
    have hXk : ∀ s ∈ forestIds kids, s ∉ X :=
      fun s hs => hXdisj s (List.mem_cons_of_mem _ hs)
    cases isB with
    | false =>
        have hrun2 : walkForest stack kids
            ⟨σ.mapping, σ.nextMount, σ.trace ++ [Ev.inlineRender id]⟩ = Option.some σf := by
          simpa [walkTree] using hrun
        have hInv1 : Inv X ⟨σ.mapping, σ.nextMount, σ.trace ++ [Ev.inlineRender id]⟩ :=
          inv_inline_step hInv hfresh_id
        have hfreshk : ∀ s ∈ forestIds kids,
            NoEvents (σ.trace ++ [Ev.inlineRender id]) s := by
          intro s hs
          have hne : id ≠ s := fun h => hid_nin (h ▸ hs)
          refine noEvents_append (hfresh s (List.mem_cons_of_mem _ hs))
            (noEvents_singleton _ s ?_)
          simp only [renderScope?, ne_eq, Option.some.injEq]
          exact hne
        obtain ⟨hK, hKreg⟩ :=
          walkForest_spec X kids stack _ σf hInv1 hndk hfreshk hXk hstackX hrun2
        have hpiece : WalkPost X stack [id] σ
            ⟨σ.mapping, σ.nextMount, σ.trace ++ [Ev.inlineRender id]⟩ := by
          refine ⟨hInv1, le_refl _, ⟨[Ev.inlineRender id], rfl, by simp, by simp, by simp,
            by simp, by simp, ?_⟩, ?_⟩
          · intro u hm
            simp at hm
            subst hm
            simp
          · intro u _
            exact ⟨rfl, rfl⟩
        have hcomp := WalkPost_comp hpiece hK
        constructor
        · refine WalkPost_mono hcomp ?_ ?_
          · intro u hu
            rcases List.mem_append.1 hu with h | h
            · simp at h
              subst h
              exact List.mem_cons_self _ _
            · exact List.mem_cons_of_mem _ h
          · intro p hp
            exact Or.inr hp
        · have hpr1 : PhReg σ ⟨σ.mapping, σ.nextMount, σ.trace ++ [Ev.inlineRender id]⟩ := by
            intro s m hm
            rcases List.mem_append.1 hm with h | h
            · exact Or.inr h
            · simp at h
          obtain ⟨_, _, ⟨Δ, hΔ, _⟩, _⟩ := hK
          exact PhReg_comp hpr1 hKreg ⟨Δ, hΔ⟩
    | true =>
        simp only [walkTree, if_true] at hrun
        cases hk : walkForest (id :: stack) kids
            ⟨σ.mapping, σ.nextMount + 1, σ.trace ++ [Ev.placeholder id σ.nextMount]⟩ with
        | none =>
            rw [hk] at hrun
            exact absurd hrun (by simp)
        | some σ2 =>
            rw [hk] at hrun
            have hInv1 : Inv X
                ⟨σ.mapping, σ.nextMount + 1, σ.trace ++ [Ev.placeholder id σ.nextMount]⟩ :=
              inv_placeholder_step hInv hfresh_id
            have hfreshk : ∀ s ∈ forestIds kids,
                NoEvents (σ.trace ++ [Ev.placeholder id σ.nextMount]) s := by
              intro s hs
              have hne : id ≠ s := fun h => hid_nin (h ▸ hs)
              refine noEvents_append (hfresh s (List.mem_cons_of_mem _ hs))
                (noEvents_singleton _ s ?_)
              simp only [renderScope?, ne_eq, Option.some.injEq]
              exact hne
            have hstackX2 : ∀ p ∈ id :: stack, p ∉ X := by
              intro p hp
              rcases List.mem_cons.1 hp with rfl | hp2
              · exact hXid
              · exact hstackX p hp2
            obtain ⟨hK, hKreg⟩ :=
              walkForest_spec X kids (id :: stack) _ σ2 hInv1 hndk hfreshk hXk hstackX2 hk
            have hKc := hK
            obtain ⟨hIσ2, hm12, ⟨Δk, hΔk, hrk, hfk, hak, hpk, hgk, hik⟩, hfrk⟩ := hKc
            -- the placeholder piece
            have hpiece1 : WalkPost X stack [id] σ
                ⟨σ.mapping, σ.nextMount + 1, σ.trace ++ [Ev.placeholder id σ.nextMount]⟩ := by
              refine ⟨hInv1, by simp, ⟨[Ev.placeholder id σ.nextMount], rfl, by simp, by simp,
                by simp, ?_, by simp, by simp⟩, ?_⟩
              · intro u m hm
                simp at hm
                obtain ⟨hm, _⟩ := hm
                subst hm
                simp
              · intro u _
                exact ⟨rfl, rfl⟩
            -- registration facts
            have hph2 : Ev.placeholder id σ.nextMount ∈ σ2.trace := by
              rw [hΔk]
              exact List.mem_append.2 (Or.inl (List.mem_append.2 (Or.inr (by simp))))
            have hzero := counts_delta_zero hpk hgk hik hrk hid_nin
            have hreg0 : regC σ2.trace id = 0 := by
              rw [hΔk, regC_append, regC_append]
              have h1 : regC σ.trace id = 0 := hfresh_id.2.1
              have h2 : regC [Ev.placeholder id σ.nextMount] id = 0 := by
                simp [regC, cnt_singleton, isReg]
              omega
            have hrep0 : repC σ2.trace id = 0 := by
              rw [hΔk, repC_append, repC_append]
              have h1 : repC σ.trace id = 0 := hfresh_id.2.2.1
              have h2 : repC [Ev.placeholder id σ.nextMount] id = 0 := by
                simp [repC, cnt_singleton, isRep]
              omega
            have hInv3 : Inv X ⟨insertM σ2.mapping id ⟨σ.nextMount, []⟩, σ2.nextMount,
                σ2.trace ++ [Ev.registered id σ.nextMount]⟩ :=
              inv_registered_step hIσ2 hph2 hreg0 hrep0
            have hpiece2 : WalkPost X stack (id :: forestIds kids)
                ⟨σ.mapping, σ.nextMount + 1, σ.trace ++ [Ev.placeholder id σ.nextMount]⟩ σ2 := by
              refine WalkPost_mono hK ?_ ?_
              · intro u hu
                exact List.mem_cons_of_mem _ hu
              · intro p hp
                rcases List.mem_cons.1 hp with rfl | hp2
                · exact Or.inl (List.mem_cons_self _ _)
                · exact Or.inr hp2
            have hpiece3 : WalkPost X stack [id] σ2
                ⟨insertM σ2.mapping id ⟨σ.nextMount, []⟩, σ2.nextMount,
                  σ2.trace ++ [Ev.registered id σ.nextMount]⟩ := by
              refine ⟨hInv3, le_refl _, ⟨[Ev.registered id σ.nextMount], rfl, by simp, by simp,
                by simp, by simp, ?_, by simp⟩, ?_⟩
              · intro u m hm
                simp at hm
                obtain ⟨hm, _⟩ := hm
                subst hm
                simp
              · intro u hu
                have hne : ¬ id = u := by
                  intro h
                  apply hu
                  rw [h]
                  exact List.mem_cons_self _ _
                rw [lookupM_insertM]
                simp [hne]
            have hpr_ph : PhReg σ
                ⟨σ.mapping, σ.nextMount + 1, σ.trace ++ [Ev.placeholder id σ.nextMount]⟩ →
                True := fun _ => trivial
            -- PhReg for the combined prefix: every placeholder in σ3 is registered or old
            have hphreg3 : ∀ s m,
                Ev.placeholder s m ∈ σ2.trace ++ [Ev.registered id σ.nextMount] →
                Ev.registered s m ∈ σ2.trace ++ [Ev.registered id σ.nextMount] ∨
                  Ev.placeholder s m ∈ σ.trace := by
              intro s m hm
              rcases List.mem_append.1 hm with h | h
              · rcases hKreg s m h with h2 | h2
                · exact Or.inl (List.mem_append.2 (Or.inl h2))
                · rcases List.mem_append.1 h2 with h3 | h3
                  · exact Or.inr h3
                  · simp at h3
                    obtain ⟨rfl, rfl⟩ := h3
                    exact Or.inl (List.mem_append.2 (Or.inr (by simp)))
              · simp at h
            cases stack with
            | nil =>
                obtain rfl := Option.some.inj hrun
                have hInv4 : Inv X ⟨insertM σ2.mapping id ⟨σ.nextMount, []⟩, σ2.nextMount,
                    (σ2.trace ++ [Ev.registered id σ.nextMount]) ++ [Ev.errorBoundary id]⟩ :=
                  inv_errorBoundary_step hInv3
                have hpiece4 : WalkPost X ([] : List Nat) [id]
                    ⟨insertM σ2.mapping id ⟨σ.nextMount, []⟩, σ2.nextMount,
                      σ2.trace ++ [Ev.registered id σ.nextMount]⟩
                    ⟨insertM σ2.mapping id ⟨σ.nextMount, []⟩, σ2.nextMount,
                      (σ2.trace ++ [Ev.registered id σ.nextMount]) ++ [Ev.errorBoundary id]⟩ := by
                  refine ⟨hInv4, le_refl _, ⟨[Ev.errorBoundary id], rfl, by simp, by simp,
                    by simp, by simp, by simp, by simp⟩, ?_⟩
                  intro u _
                  exact ⟨rfl, rfl⟩
                have hcomp := WalkPost_comp hpiece1
                  (WalkPost_comp hpiece2 (WalkPost_comp hpiece3 hpiece4))
                constructor
                · refine WalkPost_mono hcomp ?_ ?_
                  · intro u hu
                    have hu2 : u = id ∨ u ∈ forestIds kids := by
                      rcases List.mem_append.1 hu with h | h
                      · left
                        simpa using h
                      · rcases List.mem_append.1 h with h2 | h2
                        · rcases List.mem_cons.1 h2 with h3 | h3
                          · exact Or.inl h3
                          · exact Or.inr h3
                        · rcases List.mem_append.1 h2 with h3 | h3
                          · left
                            simpa using h3
                          · left
                            simpa using h3
                    rcases hu2 with rfl | h
                    · exact List.mem_cons_self _ _
                    · exact List.mem_cons_of_mem _ h
                  · intro p hp
                    simp at hp
                · intro s m hm
                  rcases List.mem_append.1 hm with h | h
                  · rcases hphreg3 s m h with h2 | h2
                    · exact Or.inl (List.mem_append.2 (Or.inl h2))
                    · exact Or.inr h2
                  · simp at h
            | cons p rest =>
                have hrun2 : (match lookupM (insertM σ2.mapping id ⟨σ.nextMount, []⟩) p with
                    | Option.none => Option.none
                    | Option.some _ =>
                        Option.some (⟨pushChild (insertM σ2.mapping id ⟨σ.nextMount, []⟩) p id,
                          σ2.nextMount,
                          (σ2.trace ++ [Ev.registered id σ.nextMount]) ++
                            [Ev.attributed id p]⟩ : SessState)) = Option.some σf := hrun
                cases hp : lookupM (insertM σ2.mapping id ⟨σ.nextMount, []⟩) p with
                | none =>
                    rw [hp] at hrun2
                    exact absurd hrun2 (by simp)
                | some pb2 =>
                    rw [hp] at hrun2
                    obtain rfl := Option.some.inj hrun2
                    have hpX : p ∉ X := hstackX p (List.mem_cons_self _ _)
                    have hInv4 : Inv X ⟨pushChild (insertM σ2.mapping id ⟨σ.nextMount, []⟩) p id,
                        σ2.nextMount,
                        (σ2.trace ++ [Ev.registered id σ.nextMount]) ++ [Ev.attributed id p]⟩ :=
                      inv_attributed_step hInv3 hp hpX
                    have hpiece4 : WalkPost X (p :: rest) [id]
                        ⟨insertM σ2.mapping id ⟨σ.nextMount, []⟩, σ2.nextMount,
                          σ2.trace ++ [Ev.registered id σ.nextMount]⟩
                        ⟨pushChild (insertM σ2.mapping id ⟨σ.nextMount, []⟩) p id, σ2.nextMount,
                          (σ2.trace ++ [Ev.registered id σ.nextMount]) ++
                            [Ev.attributed id p]⟩ := by
                      refine ⟨hInv4, le_refl _, ⟨[Ev.attributed id p], rfl, by simp, by simp,
                        ?_, by simp, by simp, by simp⟩, ?_⟩
                      · intro c q hm
                        simp at hm
                        obtain ⟨_, hm2⟩ := hm
                        subst hm2
                        exact Or.inr (List.mem_cons_self _ _)
                      · intro u _
                        rw [lookupM_pushChild]
                        by_cases hpu : p = u
                        · subst hpu
                          cases lookupM (insertM σ2.mapping id ⟨σ.nextMount, []⟩) p <;> simp
                        · simp [hpu]
                    have hcomp := WalkPost_comp hpiece1
                      (WalkPost_comp hpiece2 (WalkPost_comp hpiece3 hpiece4))
                    constructor
                    · refine WalkPost_mono hcomp ?_ ?_
                      · intro u hu
                        have hu2 : u = id ∨ u ∈ forestIds kids := by
                          rcases List.mem_append.1 hu with h | h
                          · left
                            simpa using h
                          · rcases List.mem_append.1 h with h2 | h2
                            · rcases List.mem_cons.1 h2 with h3 | h3
                              · exact Or.inl h3
                              · exact Or.inr h3
                            · rcases List.mem_append.1 h2 with h3 | h3
                              · left
                                simpa using h3
                              · left
                                simpa using h3
                        rcases hu2 with rfl | h
                        · exact List.mem_cons_self _ _
                        · exact List.mem_cons_of_mem _ h
                      · intro q hq
                        exact Or.inr hq
                    · intro s m hm
                      rcases List.mem_append.1 hm with h | h
                      · rcases hphreg3 s m h with h2 | h2
                        · exact Or.inl (List.mem_append.2 (Or.inl h2))
                        · exact Or.inr h2
                      · simp at h

theorem walkForest_spec (X : List Nat) : (f : SForest) → ∀ (stack : List Nat) (σ σf : SessState),
    Inv X σ → (forestIds f).Nodup → (∀ s ∈ forestIds f, NoEvents σ.trace s) →
    (∀ s ∈ forestIds f, s ∉ X) → (∀ p ∈ stack, p ∉ X) →
    walkForest stack f σ = Option.some σf →
    WalkPost X stack (forestIds f) σ σf ∧ PhReg σ σf
  | .nil => by
      intro stack σ σf hInv _ _ _ _ hrun
      have heq : σ = σf := by simpa [walkForest] using hrun
      subst heq
      exact ⟨WalkPost_refl _ hInv, PhReg_refl σ⟩
  | .cons t ts => by
      intro stack σ σf hInv hnd hfresh hXdisj hstackX hrun
      simp only [forestIds] at hnd hfresh hXdisj ⊢
      simp only [walkForest] at hrun
      cases hk : walkTree stack t σ with
      | none =>
          rw [hk] at hrun
          exact absurd hrun (by simp)
      | some σ1 =>
          rw [hk] at hrun
          have hnd1 : (treeIds t).Nodup := hnd.of_append_left
          have hnd2 : (forestIds ts).Nodup := hnd.of_append_right
          have hdisj : (treeIds t).Disjoint (forestIds ts) := List.disjoint_of_nodup_append hnd
          obtain ⟨hT, hTreg⟩ := walkTree_spec X t stack σ σ1 hInv hnd1
            (fun s hs => hfresh s (List.mem_append.2 (Or.inl hs)))
            (fun s hs => hXdisj s (List.mem_append.2 (Or.inl hs))) hstackX hk
          have hTc := hT
          obtain ⟨hIσ1, hm1, ⟨Δ1, hΔ1, hr1, hf1, ha1, hp1, hg1, hi1⟩, hfr1⟩ := hTc
          have hfresh2 : ∀ s ∈ forestIds ts, NoEvents σ1.trace s := by
            intro s hs
            have hsnot : s ∉ treeIds t := fun hmem => hdisj hmem hs
            rw [hΔ1]
            exact noEvents_of_delta hp1 hg1 hi1 hr1 hsnot
              (hfresh s (List.mem_append.2 (Or.inr hs)))
          obtain ⟨hF, hFreg⟩ := walkForest_spec X ts stack σ1 σf hIσ1 hnd2 hfresh2
            (fun s hs => hXdisj s (List.mem_append.2 (Or.inr hs))) hstackX hrun
          have hFc := hF
          obtain ⟨_, _, ⟨Δ2, hΔ2, _⟩, _⟩ := hFc
          exact ⟨WalkPost_comp hT hF, PhReg_comp hTreg hFreg ⟨Δ2, hΔ2⟩⟩

end

end DioxusSSR

namespace DioxusSSR

/-! ### One resolution report -/

theorem inv_frozen_step {X : List Nat} {σ : SessState} {sc : Nat}
    (h : Inv X σ) (hex : ∃ m, Ev.replaced m sc ∈ σ.trace) :
    Inv X ⟨σ.mapping, σ.nextMount, σ.trace ++ [.frozen sc]⟩ := by
  obtain ⟨hg, hnd, hmem, hmr, hci, hpb, hpi⟩ := h
  refine ⟨GoodTrace.snoc hg hex, hnd, ?_, ?_, ?_, ?_, ?_⟩
  · intro t htX
    have := hmem t htX
    simpa [regC, repC, cnt_append, cnt_singleton, isReg, isRep] using this
  · intro t pb hl
    exact List.mem_append.2 (Or.inl (hmr t pb hl))
  · intro t pb hl c
    rw [hci t pb hl c]
    simp
  · intro t m hm
    rcases List.mem_append.1 hm with hm2 | hm2
    · exact hpb t m hm2
    · simp at hm2
  · intro t u m hm1 hm2
    have h1 : Ev.placeholder t m ∈ σ.trace := by
      rcases List.mem_append.1 hm1 with h2 | h2
      · exact h2
      · simp at h2
    have h2 : Ev.placeholder u m ∈ σ.trace := by
      rcases List.mem_append.1 hm2 with h3 | h3
      · exact h3
      · simp at h3
    exact hpi t u m h1 h2

theorem inv_errorBoundary_list {X : List Nat} {σ : SessState} (h : Inv X σ) (cs : List Nat) :
    Inv X ⟨σ.mapping, σ.nextMount, σ.trace ++ cs.map Ev.errorBoundary⟩ := by
  induction cs generalizing σ with
  | nil => simpa using h
  | cons c tl ih =>
      have h2 : Inv X ⟨σ.mapping, σ.nextMount, σ.trace ++ [Ev.errorBoundary c]⟩ :=
        inv_errorBoundary_step h
      have h3 := ih h2
      simpa [List.append_assoc] using h3

theorem inv_replaced_step {σ2 : SessState} {sc mnt : Nat}
    (h : Inv [sc] σ2)
    (hreg : Ev.registered sc mnt ∈ σ2.trace)
    (hregC : regC σ2.trace sc = 1)
    (hrep0 : repC σ2.trace sc = 0)
    (hnone : lookupM σ2.mapping sc = Option.none) :
    Inv [] ⟨σ2.mapping, σ2.nextMount, σ2.trace ++ [.replaced mnt sc]⟩ := by
  obtain ⟨hg, hnd, hmem, hmr, hci, hpb, hpi⟩ := h
  have hstep : GoodStep σ2.trace (.replaced mnt sc) := ⟨hreg, hrep0⟩
  refine ⟨GoodTrace.snoc hg hstep, hnd, ?_, ?_, ?_, ?_, ?_⟩
  · intro t _
    by_cases hts : t = sc
    · subst hts
      rw [hnone]
      unfold regC at hregC
      unfold repC at hrep0
      unfold regC repC
      rw [cnt_append, cnt_singleton, cnt_append, cnt_singleton]
      simp [isReg, isRep]
    · have := hmem t (by simp [hts])
      have hne : ¬ sc = t := fun h2 => hts h2.symm
      simpa [regC, repC, cnt_append, cnt_singleton, isReg, isRep, hne] using this
  · intro t pb hl
    exact List.mem_append.2 (Or.inl (hmr t pb hl))
  · intro t pb hl c
    rw [hci t pb hl c]
    simp
  · intro t m hm
    rcases List.mem_append.1 hm with hm2 | hm2
    · exact hpb t m hm2
    · simp at hm2
  · intro t u m hm1 hm2
    have h1 : Ev.placeholder t m ∈ σ2.trace := by
      rcases List.mem_append.1 hm1 with h2 | h2
      · exact h2
      · simp at h2
    have h2 : Ev.placeholder u m ∈ σ2.trace := by
      rcases List.mem_append.1 hm2 with h3 | h3
      · exact h3
      · simp at h3
    exact hpi t u m h1 h2

end DioxusSSR

namespace DioxusSSR

theorem doResolved_spec (e : ResolvedEntry) (σ σ2 : SessState)
    (hInv : Inv [] σ)
    (hnd : (forestIds e.content).Nodup)
    (hfresh : ∀ s ∈ forestIds e.content, NoEvents σ.trace s)
    (hrun : doResolved e σ = Option.some σ2) :
    ResolvedPost e σ σ2 := by
  unfold doResolved at hrun
  cases hlook : lookupM σ.mapping e.scope with
  | none =>
      rw [hlook] at hrun
      obtain rfl := Option.some.inj hrun
      refine ⟨hInv, le_refl _, PhReg_refl σ,
        ⟨[], by simp, by simp, by simp, by simp, by simp, by simp, by simp, by simp,
          by simp⟩, ?_⟩
      intro pb hl
      rw [hlook] at hl
      exact absurd hl (by simp)
  | some pb =>
      rw [hlook] at hrun
      have hsome : (lookupM σ.mapping e.scope).isSome := by
        rw [hlook]
        rfl
      have hcnt := (hInv.memIff e.scope (by simp)).1 hsome
      have hInvA : Inv [e.scope] ⟨eraseM σ.mapping e.scope, σ.nextMount, σ.trace⟩ := by
        obtain ⟨hg, hnd2, hmem, hmr, hci, hpbnd, hpi⟩ := hInv
        refine ⟨hg, nodupKeys_eraseM hnd2 _, ?_, ?_, ?_, hpbnd, hpi⟩
        · intro t htX
          have hne : ¬ e.scope = t := by
            intro h2
            exact htX (by simp [h2])
          have hl2 : lookupM (eraseM σ.mapping e.scope) t = lookupM σ.mapping t := by
            rw [lookupM_eraseM]
            simp [hne]
          rw [show (⟨eraseM σ.mapping e.scope, σ.nextMount, σ.trace⟩ : SessState).mapping =
            eraseM σ.mapping e.scope from rfl, hl2]
          exact hmem t (by simp)
        · intro t pb2 hl
          rw [show (⟨eraseM σ.mapping e.scope, σ.nextMount, σ.trace⟩ : SessState).mapping =
            eraseM σ.mapping e.scope from rfl, lookupM_eraseM] at hl
          by_cases hte : e.scope = t
          · simp [hte] at hl
          · rw [if_neg hte] at hl
            exact hmr t pb2 hl
        · intro t pb2 hl c
          rw [show (⟨eraseM σ.mapping e.scope, σ.nextMount, σ.trace⟩ : SessState).mapping =
            eraseM σ.mapping e.scope from rfl, lookupM_eraseM] at hl
          by_cases hte : e.scope = t
          · simp [hte] at hl
          · rw [if_neg hte] at hl
            exact hci t pb2 hl c
      have hXc : ∀ s ∈ forestIds e.content, s ∉ ([e.scope] : List Nat) := by
        intro s hs hmem2
        simp at hmem2
        subst hmem2
        have h0 := (hfresh _ hs).2.1
        have h1 := hcnt.1
        omega
      cases hw : walkForest [] e.content ⟨eraseM σ.mapping e.scope, σ.nextMount, σ.trace⟩ with
      | none =>
          rw [hw] at hrun
          exact absurd hrun (by simp)
      | some σw =>
          rw [hw] at hrun
          obtain ⟨hW, hWreg⟩ := walkForest_spec [e.scope] e.content [] _ σw hInvA hnd hfresh
            hXc (by simp) hw
          have hWc := hW
          obtain ⟨hIw, hmw, ⟨Δw, hΔw, hrw, hfw, haw, hpw, hgw, hiw⟩, hfrw⟩ := hWc
          have hΔw2 : σw.trace = σ.trace ++ Δw := hΔw
          have hreg_mem : Ev.registered e.scope pb.mount ∈ σw.trace := by
            rw [hΔw2]
            exact List.mem_append.2 (Or.inl (hInv.mountReg _ _ hlook))
          have hesc_nin : e.scope ∉ forestIds e.content := fun h => (hXc _ h) (by simp)
          have hrepw : repC σw.trace e.scope = 0 := by
            rw [hΔw2, repC_append]
            have h1 : repC σ.trace e.scope = 0 := hcnt.2
            have h2 : repC Δw e.scope = 0 := repC_eq_zero_iff.2 (fun m hm => hrw m _ hm)
            omega
          have hregw : regC σw.trace e.scope = 1 := by
            rw [hΔw2, regC_append]
            have h2 : regC Δw e.scope = 0 :=
              regC_eq_zero_iff.2 (fun m hm => hesc_nin (hgw _ m hm))
            have h1 : regC σ.trace e.scope = 1 := hcnt.1
            omega
          have hlookw : lookupM σw.mapping e.scope = Option.none := by
            have h2 := (hfrw e.scope hesc_nin).1
            have hA : lookupM (eraseM σ.mapping e.scope) e.scope = Option.none := by
              rw [lookupM_eraseM]
              simp
            rw [show (⟨eraseM σ.mapping e.scope, σ.nextMount, σ.trace⟩ : SessState).mapping =
              eraseM σ.mapping e.scope from rfl, hA] at h2
            cases hx : lookupM σw.mapping e.scope with
            | none => rfl
            | some v =>
                rw [hx] at h2
                simp at h2
          have hInvR : Inv []
              ⟨σw.mapping, σw.nextMount, σw.trace ++ [.replaced pb.mount e.scope]⟩ :=
            inv_replaced_step hIw hreg_mem hregw hrepw hlookw
          have hmono : σ.nextMount ≤ σw.nextMount := hmw
          have hphreg_final : ∀ tail : List Ev,
              (∀ s m, Ev.placeholder s m ∈ tail → False) →
              PhReg σ ⟨σw.mapping, σw.nextMount, σw.trace ++ tail⟩ := by
            intro tail htail s m hm
            rcases List.mem_append.1 hm with h | h
            · rcases hWreg s m h with h2 | h2
              · exact Or.inl (List.mem_append.2 (Or.inl h2))
              · exact Or.inr h2
            · exact absurd h (fun h3 => htail s m h3)
          cases hsb : e.stillBoundary with
          | false =>
              rw [hsb] at hrun
              simp only [Bool.false_eq_true, if_false] at hrun
              obtain rfl := Option.some.inj hrun
              refine ⟨hInvR, hmono, hphreg_final _ ?_, ?_, ?_⟩
              · intro s m hm
                simp at hm
              · refine ⟨Δw ++ [Ev.replaced pb.mount e.scope], ?_, ?_, ?_, ?_, ?_, ?_, ?_, ?_,
                  ?_⟩
                · rw [show (⟨σw.mapping, σw.nextMount,
                    σw.trace ++ [Ev.replaced pb.mount e.scope]⟩ : SessState).trace =
                    σw.trace ++ [Ev.replaced pb.mount e.scope] from rfl, hΔw2,
                    List.append_assoc]
                · intro m s hm
                  rcases List.mem_append.1 hm with h | h
                  · exact absurd h (hrw m s)
                  · simp at h
                    obtain ⟨h1, h2⟩ := h
                    subst h2
                    exact ⟨rfl, hcnt.1⟩
                · intro s hm
                  rcases List.mem_append.1 hm with h | h
                  · exact absurd h (hfw s)
                  · simp at h
                · intro s m hm
                  rcases List.mem_append.1 hm with h | h
                  · exact hpw s m h
                  · simp at h
                · intro s m hm
                  rcases List.mem_append.1 hm with h | h
                  · exact hgw s m h
                  · simp at h
                · intro s hm
                  rcases List.mem_append.1 hm with h | h
                  · exact hiw s h
                  · simp at h
                · intro c p hm
                  rcases List.mem_append.1 hm with h | h
                  · rcases haw c p h with h2 | h2
                    · exact h2
                    · simp at h2
                  · simp at h
                · intro m s hm hsb2
                  rw [hsb] at hsb2
                  exact absurd hsb2 (by simp)
                · intro s hm
                  exfalso
                  rcases List.mem_append.1 hm with h | h
                  · exact hfw s h
                  · simp at h
              · intro pb2 hl2 hsb2
                rw [hlook] at hl2
                have : pb2 = pb := by
                  simpa using hl2.symm
                rw [hsb] at hsb2
                exact absurd hsb2 (by simp)
          | true =>
              rw [hsb] at hrun
              simp only [if_true] at hrun
              obtain rfl := Option.some.inj hrun
              have hInvF : Inv []
                  ⟨σw.mapping, σw.nextMount,
                    ((σw.trace ++ [Ev.replaced pb.mount e.scope]) ++ [Ev.frozen e.scope]) ++
                      pb.children.map Ev.errorBoundary⟩ := by
                have h1 : Inv []
                    ⟨σw.mapping, σw.nextMount,
                      (σw.trace ++ [Ev.replaced pb.mount e.scope]) ++ [Ev.frozen e.scope]⟩ :=
                  inv_frozen_step hInvR ⟨pb.mount, List.mem_append.2 (Or.inr (by simp))⟩
                exact inv_errorBoundary_list h1 pb.children
              refine ⟨hInvF, hmono, ?_, ?_, ?_⟩
              · intro s m hm
                have hm2 : Ev.placeholder s m ∈ σw.trace ++
                    (([Ev.replaced pb.mount e.scope] ++ [Ev.frozen e.scope]) ++
                      pb.children.map Ev.errorBoundary) := by
                  simpa [List.append_assoc] using hm
                rcases List.mem_append.1 hm2 with h | h
                · rcases hWreg s m h with h2 | h2
                  · exact Or.inl (List.mem_append.2 (Or.inl (List.mem_append.2 (Or.inl
                      (List.mem_append.2 (Or.inl h2))))))
                  · exact Or.inr h2
                · exfalso
                  rcases List.mem_append.1 h with h2 | h2
                  · rcases List.mem_append.1 h2 with h3 | h3 <;> simp at h3
                  · rcases List.mem_map.1 h2 with ⟨c, _, hc⟩
                    simp at hc
              · refine ⟨Δw ++ (([Ev.replaced pb.mount e.scope] ++ [Ev.frozen e.scope]) ++
                  pb.children.map Ev.errorBoundary), ?_, ?_, ?_, ?_, ?_, ?_, ?_, ?_, ?_⟩
                · rw [show (⟨σw.mapping, σw.nextMount,
                    ((σw.trace ++ [Ev.replaced pb.mount e.scope]) ++ [Ev.frozen e.scope]) ++
                      pb.children.map Ev.errorBoundary⟩ : SessState).trace =
                    ((σw.trace ++ [Ev.replaced pb.mount e.scope]) ++ [Ev.frozen e.scope]) ++
                      pb.children.map Ev.errorBoundary from rfl, hΔw2]
                  simp [List.append_assoc]
                · intro m s hm
                  have hseq : s = e.scope := by
                    rcases List.mem_append.1 hm with h | h
                    · exact absurd h (hrw m s)
                    · rcases List.mem_append.1 h with h2 | h2
                      · rcases List.mem_append.1 h2 with h3 | h3
                        · simp at h3
                          exact h3.2
                        · simp at h3
                      · rcases List.mem_map.1 h2 with ⟨c, _, hc⟩
                        simp at hc
                  subst hseq
                  exact ⟨rfl, hcnt.1⟩
                · intro s hm
                  rcases List.mem_append.1 hm with h | h
                  · exact absurd h (hfw s)
                  · rcases List.mem_append.1 h with h2 | h2
                    · rcases List.mem_append.1 h2 with h3 | h3
                      · simp at h3
                      · simp at h3
                        exact h3
                    · rcases List.mem_map.1 h2 with ⟨c, _, hc⟩
                      simp at hc
                · intro s m hm
                  rcases List.mem_append.1 hm with h | h
                  · exact hpw s m h
                  · rcases List.mem_append.1 h with h2 | h2
                    · rcases List.mem_append.1 h2 with h3 | h3 <;> simp at h3
                    · rcases List.mem_map.1 h2 with ⟨c, _, hc⟩
                      simp at hc
                · intro s m hm
                  rcases List.mem_append.1 hm with h | h
                  · exact hgw s m h
                  · rcases List.mem_append.1 h with h2 | h2
                    · rcases List.mem_append.1 h2 with h3 | h3 <;> simp at h3
                    · rcases List.mem_map.1 h2 with ⟨c, _, hc⟩
                      simp at hc
                · intro s hm
                  rcases List.mem_append.1 hm with h | h
                  · exact hiw s h
                  · rcases List.mem_append.1 h with h2 | h2
                    · rcases List.mem_append.1 h2 with h3 | h3 <;> simp at h3
                    · rcases List.mem_map.1 h2 with ⟨c, _, hc⟩
                      simp at hc
                · intro c p hm
                  rcases List.mem_append.1 hm with h | h
                  · rcases haw c p h with h2 | h2
                    · exact h2
                    · simp at h2
                  · rcases List.mem_append.1 h with h2 | h2
                    · rcases List.mem_append.1 h2 with h3 | h3 <;> simp at h3
                    · rcases List.mem_map.1 h2 with ⟨c2, _, hc⟩
                      simp at hc
                · intro m2 s2 hm2 _
                  have hs2 : s2 = e.scope := by
                    rcases List.mem_append.1 hm2 with h | h
                    · exact absurd h (hrw m2 s2)
                    · rcases List.mem_append.1 h with h2 | h2
                      · rcases List.mem_append.1 h2 with h3 | h3
                        · simp at h3
                          exact h3.2
                        · simp at h3
                      · rcases List.mem_map.1 h2 with ⟨c, _, hc⟩
                        simp at hc
                  subst hs2
                  exact List.mem_append.2 (Or.inl (List.mem_append.2 (Or.inr (by simp))))
                · intro s2 hm2
                  have hs2 : s2 = e.scope := by
                    rcases List.mem_append.1 hm2 with h | h
                    · exact absurd h (hfw s2)
                    · rcases List.mem_append.1 h with h2 | h2
                      · rcases List.mem_append.1 h2 with h3 | h3
                        · simp at h3
                        · simp at h3
                          exact h3
                      · rcases List.mem_map.1 h2 with ⟨c, _, hc⟩
                        simp at hc
                  subst hs2
                  refine ⟨σw.trace, Ev.frozen e.scope :: pb.children.map Ev.errorBoundary,
                    pb.mount, by simp, ?_⟩
                  intro c hc
                  have hcs : Ev.attributed c e.scope ∈ σ.trace := by
                    rw [hΔw2] at hc
                    rcases List.mem_append.1 hc with h | h
                    · exact h
                    · rcases haw c _ h with h2 | h2
                      · exact absurd h2 hesc_nin
                      · simp at h2
                  have hchild : c ∈ pb.children := (hInv.childIff _ _ hlook c).2 hcs
                  exact List.mem_append.2 (Or.inr (List.mem_map.2 ⟨c, hchild, rfl⟩))
              · intro pb2 hl2 _
                rw [hlook] at hl2
                have hpbeq : pb2 = pb := by
                  simpa using hl2.symm
                subst hpbeq
                constructor
                · exact List.mem_append.2 (Or.inl (List.mem_append.2 (Or.inr (by simp))))
                · intro c hc
                  exact List.mem_append.2 (Or.inr (List.mem_map.2 ⟨c, hc, rfl⟩))

end DioxusSSR

namespace DioxusSSR

/-! ### The resolution loop -/

theorem pendingOK_step {σ σ1 : SessState} {e : ResolvedEntry} {tl : List ResolvedEntry}
    (hPO : PendingOK σ (e :: tl)) (hrp : ResolvedPost e σ σ1) : PendingOK σ1 tl := by
  obtain ⟨hInv, hnd, hfresh⟩ := hPO
  simp only [entriesIds] at hnd hfresh
  obtain ⟨hInv1, _, _, ⟨Δ, hΔ, hrep, _, hph, hreg, hinl, _, _, _⟩, _⟩ := hrp
  refine ⟨hInv1, hnd.of_append_right, ?_⟩
  intro u hu
  have hufresh : NoEvents σ.trace u := hfresh u (List.mem_append.2 (Or.inr hu))
  have hunin : u ∉ forestIds e.content :=
    fun h => (List.disjoint_of_nodup_append hnd) h hu
  rw [hΔ]
  refine noEvents_append hufresh ⟨?_, ?_, ?_, ?_⟩
  · exact phC_eq_zero_iff.2 fun m hm => hunin (hph u m hm)
  · exact regC_eq_zero_iff.2 fun m hm => hunin (hreg u m hm)
  · refine repC_eq_zero_iff.2 fun m hm => ?_
    obtain ⟨_, hr1⟩ := hrep m u hm
    have := hufresh.2.1
    omega
  · exact inlC_eq_zero_iff.2 fun hm => hunin (hinl u hm)

theorem doEntries_spec : ∀ (es : List ResolvedEntry) (σ σf : SessState),
    PendingOK σ es → doEntries es σ = Option.some σf →
    Inv [] σf ∧ (∃ Δ, σf.trace = σ.trace ++ Δ) ∧ PhReg σ σf ∧
      (∀ σe ∈ epochsFrom es σ, Inv [] σe) := by
  intro es
  induction es with
  | nil =>
      intro σ σf hPO hrun
      obtain rfl : σ = σf := Option.some.inj hrun
      refine ⟨hPO.1, ⟨[], by simp⟩, PhReg_refl σ, ?_⟩
      intro σe he
      simp [epochsFrom] at he
      subst he
      exact hPO.1
  | cons e tl ih =>
      intro σ σf hPO hrun
      simp only [doEntries] at hrun
      cases hd : doResolved e σ with
      | none =>
          rw [hd] at hrun
          exact absurd hrun (by simp)
      | some σ1 =>
          rw [hd] at hrun
          have hndc : (forestIds e.content).Nodup := by
            have := hPO.2.1
            simp only [entriesIds] at this
            exact this.of_append_left
          have hfreshc : ∀ u ∈ forestIds e.content, NoEvents σ.trace u := by
            intro u hu
            refine hPO.2.2 u ?_
            simp only [entriesIds]
            exact List.mem_append.2 (Or.inl hu)
          have hrp := doResolved_spec e σ σ1 hPO.1 hndc hfreshc hd
          have hPO1 := pendingOK_step hPO hrp
          obtain ⟨hIf, ⟨Δ2, hΔ2⟩, hpr2, hep⟩ := ih σ1 σf hPO1 hrun
          obtain ⟨_, _, hpr1, ⟨Δ1, hΔ1, _⟩, _⟩ := hrp
          refine ⟨hIf, ⟨Δ1 ++ Δ2, by rw [hΔ2, hΔ1, List.append_assoc]⟩,
            PhReg_comp hpr1 hpr2 ⟨Δ2, hΔ2⟩, ?_⟩
          intro σe he
          simp only [epochsFrom, hd] at he
          rcases List.mem_cons.1 he with rfl | he2
          · exact hPO.1
          · exact hep σe he2

theorem doEntries_frozen (s m : Nat) : ∀ (es : List ResolvedEntry) (σ σf : SessState),
    PendingOK σ es → doEntries es σ = Option.some σf →
    (∀ e ∈ es, e.scope = s → e.stillBoundary = true) →
    Ev.replaced m s ∈ σf.trace →
    Ev.replaced m s ∈ σ.trace ∨ Ev.frozen s ∈ σf.trace := by
  intro es
  induction es with
  | nil =>
      intro σ σf _ hrun _ hmem
      obtain rfl : σ = σf := Option.some.inj hrun
      exact Or.inl hmem
  | cons e tl ih =>
      intro σ σf hPO hrun hsb hmem
      simp only [doEntries] at hrun
      cases hd : doResolved e σ with
      | none =>
          rw [hd] at hrun
          exact absurd hrun (by simp)
      | some σ1 =>
          rw [hd] at hrun
          have hndc : (forestIds e.content).Nodup := by
            have := hPO.2.1
            simp only [entriesIds] at this
            exact this.of_append_left
          have hfreshc : ∀ u ∈ forestIds e.content, NoEvents σ.trace u := by
            intro u hu
            refine hPO.2.2 u ?_
            simp only [entriesIds]
            exact List.mem_append.2 (Or.inl hu)
          have hrp := doResolved_spec e σ σ1 hPO.1 hndc hfreshc hd
          have hPO1 := pendingOK_step hPO hrp
          obtain ⟨_, ⟨Δ2, hΔ2⟩, _, _⟩ := doEntries_spec tl σ1 σf hPO1 hrun
          rcases ih σ1 σf hPO1 hrun (fun e2 he2 => hsb e2 (List.mem_cons_of_mem _ he2))
            hmem with h | h
          · obtain ⟨_, _, _, ⟨Δ1, hΔ1, hrepc, _, _, _, _, _, hfl, _⟩, _⟩ := hrp
            rw [hΔ1] at h
            rcases List.mem_append.1 h with h2 | h2
            · exact Or.inl h2
            · obtain ⟨hseq, _⟩ := hrepc m s h2
              have hsbt : e.stillBoundary = true := hsb e (List.mem_cons_self _ _) hseq.symm
              have hfz : Ev.frozen s ∈ σ1.trace := hfl m s h2 hsbt
              refine Or.inr ?_
              rw [hΔ2]
              exact List.mem_append.2 (Or.inl hfz)
          · exact Or.inr h

theorem doEntries_capture (s : Nat) : ∀ (es : List ResolvedEntry) (σ σf : SessState),
    PendingOK σ es → doEntries es σ = Option.some σf →
    Ev.frozen s ∈ σf.trace →
    Ev.frozen s ∈ σ.trace ∨
      (∀ c, Ev.attributed c s ∈ σf.trace → Ev.errorBoundary c ∈ σf.trace) := by
  intro es
  induction es with
  | nil =>
      intro σ σf _ hrun hmem
      obtain rfl : σ = σf := Option.some.inj hrun
      exact Or.inl hmem
  | cons e tl ih =>
      intro σ σf hPO hrun hmem
      simp only [doEntries] at hrun
      cases hd : doResolved e σ with
      | none =>
          rw [hd] at hrun
          exact absurd hrun (by simp)
      | some σ1 =>
          rw [hd] at hrun
          have hndc : (forestIds e.content).Nodup := by
            have := hPO.2.1
            simp only [entriesIds] at this
            exact this.of_append_left
          have hfreshc : ∀ u ∈ forestIds e.content, NoEvents σ.trace u := by
            intro u hu
            refine hPO.2.2 u ?_
            simp only [entriesIds]
            exact List.mem_append.2 (Or.inl hu)
          have hrp := doResolved_spec e σ σ1 hPO.1 hndc hfreshc hd
          have hPO1 := pendingOK_step hPO hrp
          obtain ⟨hIf, ⟨Δ2, hΔ2⟩, _, _⟩ := doEntries_spec tl σ1 σf hPO1 hrun
          rcases ih σ1 σf hPO1 hrun hmem with h | h
          · obtain ⟨_, _, _, ⟨Δ1, hΔ1, _, _, _, _, _, _, _, hcap⟩, _⟩ := hrp
            rw [hΔ1] at h
            rcases List.mem_append.1 h with h2 | h2
            · exact Or.inl h2
            · obtain ⟨A, B, m2, hdec, hA⟩ := hcap s h2
              have hdecf : σf.trace = A ++ Ev.replaced m2 s :: (B ++ Δ2) := by
                rw [hΔ2, hdec]
                simp
              have hafter := good_after_rep hIf.good hdecf
              refine Or.inr ?_
              intro c hc
              rw [hdecf] at hc
              rcases List.mem_append.1 hc with hc2 | hc2
              · have := hA c hc2
                rw [hΔ2]
                exact List.mem_append.2 (Or.inl this)
              · rcases List.mem_cons.1 hc2 with hc3 | hc3
                · exact absurd hc3 (by simp)
                · exact absurd hc3 (hafter.2.2.2.2 c)
          · exact Or.inr h

end DioxusSSR

namespace DioxusSSR

/-! ### The whole session -/

theorem noEvents_nil (s : Nat) : NoEvents [] s :=
  ⟨rfl, rfl, rfl, rfl⟩

theorem inv_initState : Inv [] initState := by
  refine ⟨GoodTrace.nil, by simp [initState], ?_, ?_, ?_, ?_, ?_⟩
  · intro t _
    simp [initState, lookupM, regC, repC, cnt]
  · intro t pb hl
    simp [initState, lookupM] at hl
  · intro t pb hl
    simp [initState, lookupM] at hl
  · intro t m hm
    simp [initState] at hm
  · intro t u m hm hm2
    simp [initState] at hm

theorem runSession_spec (inp : SessionInput) (σf : SessState)
    (hwf : WellFormed inp)
    (hrun : runSession inp = SessionResult.completed σf) :
    Inv [] σf ∧
    (∀ σe ∈ sessionEpochs inp, Inv [] σe) ∧
    (∀ s m, Ev.placeholder s m ∈ σf.trace → Ev.registered s m ∈ σf.trace) ∧
    (∀ ev ∈ initialFrameTrace inp, ev ∈ σf.trace) ∧
    (∀ m s, Ev.replaced m s ∈ σf.trace →
      (∀ e ∈ inp.resolved, e.scope = s → e.stillBoundary = true) →
      Ev.frozen s ∈ σf.trace) ∧
    (∀ s, Ev.frozen s ∈ σf.trace →
      ∀ c, Ev.attributed c s ∈ σf.trace → Ev.errorBoundary c ∈ σf.trace) := by
  unfold runSession at hrun
  by_cases hre : inp.rootErrors.isEmpty = true
  · rw [if_pos hre] at hrun
    cases hw : walkForest [] inp.initialForest initState with
    | none =>
        rw [hw] at hrun
        exact absurd hrun (by simp)
    | some σ1 =>
        rw [hw] at hrun
        have hrun2 : (match doEntries inp.resolved σ1 with
            | Option.none => SessionResult.panicked
            | Option.some σf2 => SessionResult.completed σf2) =
            SessionResult.completed σf := hrun
        cases hd : doEntries inp.resolved σ1 with
        | none =>
            rw [hd] at hrun2
            exact absurd hrun2 (by simp)
        | some σf2 =>
            rw [hd] at hrun2
            have heq : σf2 = σf := by
              injection hrun2
            subst heq
            unfold WellFormed at hwf
            obtain ⟨hW, hWreg⟩ := walkForest_spec [] inp.initialForest [] initState σ1
              inv_initState hwf.of_append_left (fun s _ => noEvents_nil s)
              (fun s _ => by simp) (fun p hp => by simp at hp) hw
            have hWc := hW
            obtain ⟨hIσ1, _, ⟨Δw, hΔw, hrw, hfw, haw, hpw, hgw, hiw⟩, _⟩ := hWc
            have hΔw2 : σ1.trace = Δw := by
              rw [hΔw]
              rfl
            have hPO : PendingOK σ1 inp.resolved := by
              refine ⟨hIσ1, hwf.of_append_right, ?_⟩
              intro u hu
              have hunin : u ∉ forestIds inp.initialForest :=
                fun h => (List.disjoint_of_nodup_append hwf) h hu
              rw [hΔw]
              exact noEvents_of_delta hpw hgw hiw hrw hunin (noEvents_nil u)
            obtain ⟨hIf, ⟨Δ2, hΔ2⟩, hpr2, hep⟩ := doEntries_spec inp.resolved σ1 σf2 hPO hd
            have hnorep1 : ∀ m s, Ev.replaced m s ∉ σ1.trace := by
              intro m s hm
              rw [hΔw2] at hm
              exact hrw m s hm
            have hnofz1 : ∀ s, Ev.frozen s ∉ σ1.trace := by
              intro s hm
              rw [hΔw2] at hm
              exact hfw s hm
            refine ⟨hIf, ?_, ?_, ?_, ?_, ?_⟩
            · intro σe he
              have : sessionEpochs inp = epochsFrom inp.resolved σ1 := by
                unfold sessionEpochs
                rw [hw]
              rw [this] at he
              exact hep σe he
            · intro s m hm
              have hcomp : PhReg initState σf2 := PhReg_comp hWreg hpr2 ⟨Δ2, hΔ2⟩
              rcases hcomp s m hm with h | h
              · exact h
              · exact absurd h (by simp [initState])
            · intro ev hev
              have : initialFrameTrace inp = σ1.trace := by
                unfold initialFrameTrace
                rw [hw]
              rw [this] at hev
              rw [hΔ2]
              exact List.mem_append.2 (Or.inl hev)
            · intro m s hm hsb
              rcases doEntries_frozen s m inp.resolved σ1 σf2 hPO hd hsb hm with h | h
              · exact absurd h (hnorep1 m s)
              · exact h
            · intro s hfz c hattr
              rcases doEntries_capture s inp.resolved σ1 σf2 hPO hd hfz with h | h
              · exact absurd h (hnofz1 s)
              · exact h c hattr
  · rw [if_neg hre] at hrun
    cases hfr : findRoutingError inp.rootErrors with
    | none =>
        rw [hfr] at hrun
        exact absurd hrun (by simp)
    | some msg =>
        rw [hfr] at hrun
        exact absurd hrun (by simp)

end DioxusSSR

namespace DioxusSSR

/-! ### Remaining helper lemmas -/

theorem cnt_le_cnt_of_imp {p q : Ev → Bool} {tr : List Ev}
    (h : ∀ e ∈ tr, p e = true → q e = true) : cnt p tr ≤ cnt q tr := by
  induction tr with
  | nil => simp [cnt]
  | cons e tl ih =>
      have htl : cnt p tl ≤ cnt q tl := ih fun e2 he2 => h e2 (List.mem_cons_of_mem _ he2)
      by_cases hp : p e = true
      · have hq := h e (List.mem_cons_self _ _) hp
        simp [cnt, List.filter_cons, hp, hq] at htl ⊢
        omega
      · have hp2 : p e = false := by
          cases hpe : p e
          · rfl
          · exact absurd hpe hp
        by_cases hq : q e = true
        · simp [cnt, List.filter_cons, hp2, hq] at htl ⊢
          omega
        · have hq2 : q e = false := by
            cases hqe : q e
            · rfl
            · exact absurd hqe hq
          simp [cnt, List.filter_cons, hp2, hq2] at htl ⊢
          omega

theorem findRoutingError_eq_none_iff (errs : List RenderErr) :
    findRoutingError errs = Option.none ↔ ∀ e ∈ errs, e.isRouting = false := by
  induction errs with
  | nil => simp [findRoutingError]
  | cons e tl ih =>
      unfold findRoutingError at ih ⊢
      rw [List.findSome?_cons]
      by_cases he : e.isRouting
      · simp [he]
      · have he2 : e.isRouting = false := by
          cases hx : e.isRouting
          · rfl
          · exact absurd hx he
        simp [he2, ih]

theorem runSession_of_errors (inp : SessionInput) (herr : inp.rootErrors ≠ []) :
    runSession inp =
      (match findRoutingError inp.rootErrors with
        | Option.some msg => SessionResult.failedRouting msg
        | Option.none => SessionResult.failedRendering (concatErrors inp.rootErrors)) := by
  unfold runSession
  rw [if_neg]
  intro h
  exact herr (List.isEmpty_iff.1 h)

end DioxusSSR

namespace DioxusSSR

/-! ### The claims -/

/-- C1: for every render session whose root error context is non-empty
after the initial build/suspense wait, `render_to` fails before emitting
any chunk: if any accumulated error downcasts to a routing error
(`ParseRouteError`) the result is `SSRError::Routing` (carrying the first
such error), otherwise it is `SSRError::Incremental` (carrying the
concatenated messages), and in both cases zero chunks are sent into the
output stream. -/
theorem root_errors_fail_before_any_chunk
    (pool : List Nat) (cacheCfg : Option (Option (Nat × String))) (inp : SessionInput)
    (fresh : Nat)
    (hmiss : check_cached_route cacheCfg = Option.none)
    (herr : inp.rootErrors ≠ []) :
    (render_to pool cacheCfg inp fresh).chunks = [] ∧
    ((∃ e ∈ inp.rootErrors, e.isRouting = true) →
      ∃ msg, findRoutingError inp.rootErrors = Option.some msg ∧
        (render_to pool cacheCfg inp fresh).outcome =
          RenderOutcome.failed (SSRError.Routing msg)) ∧
    ((∀ e ∈ inp.rootErrors, e.isRouting = false) →
      (render_to pool cacheCfg inp fresh).outcome =
        RenderOutcome.failed (SSRError.Incremental (concatErrors inp.rootErrors))) := by
  have hsess := runSession_of_errors inp herr
  cases hfr : findRoutingError inp.rootErrors with
  | some msg =>
      rw [hfr] at hsess
      refine ⟨by simp [render_to, hmiss, hsess], ?_, ?_⟩
      · intro _
        exact ⟨msg, rfl, by simp [render_to, hmiss, hsess]⟩
      · intro hall
        have : findRoutingError inp.rootErrors = Option.none :=
          (findRoutingError_eq_none_iff _).2 hall
        rw [hfr] at this
        exact absurd this (by simp)
  | none =>
      rw [hfr] at hsess
      refine ⟨by simp [render_to, hmiss, hsess], ?_, ?_⟩
      · rintro ⟨e, he, hre⟩
        have := (findRoutingError_eq_none_iff _).1 hfr e he
        rw [hre] at this
        exact absurd this (by simp)
      · intro _
        simp [render_to, hmiss, hsess]

theorem root_errors_fail_before_any_chunk_witness :
    (check_cached_route Option.none = Option.none ∧ routingErrInput.rootErrors ≠ []) ∧
    ((render_to [] Option.none routingErrInput 0).chunks = [] ∧
      ((∃ e ∈ routingErrInput.rootErrors, e.isRouting = true) →
        ∃ msg, findRoutingError routingErrInput.rootErrors = Option.some msg ∧
          (render_to [] Option.none routingErrInput 0).outcome =
            RenderOutcome.failed (SSRError.Routing msg)) ∧
      ((∀ e ∈ routingErrInput.rootErrors, e.isRouting = false) →
        (render_to [] Option.none routingErrInput 0).outcome =
          RenderOutcome.failed (SSRError.Incremental (concatErrors routingErrInput.rootErrors)))) :=
  ⟨⟨by decide, by decide⟩,
    root_errors_fail_before_any_chunk [] Option.none routingErrInput 0 (by decide) (by decide)⟩

/-- C5: when the incremental cache holds a (non-expired) entry for the
route, the cached body is pushed synchronously as the sole chunk, the
stored freshness is returned, and no component graph is built: the
virtual-dom factory is never invoked, no background task is spawned, no
renderer is taken from the pool and the pool is untouched. -/
theorem cached_route_served_synchronously
    (pool : List Nat) (f : Nat) (body : String) (inp : SessionInput) (fresh : Nat) :
    render_to pool (Option.some (Option.some (f, body))) inp fresh =
      ⟨RenderOutcome.ok (Freshness.cached f), [Chunk.cachedBody body], pool, false, false,
        Option.none, false⟩ := rfl

/-- C6: a cache-missing session pops the last pooled renderer (or a
freshly constructed one when the pool is empty) before rendering, and a
session that runs to completion pushes that same renderer back into the
pool. -/
theorem renderer_pool_pop_and_push
    (pool : List Nat) (cacheCfg : Option (Option (Nat × String))) (inp : SessionInput)
    (fresh : Nat) (σf : SessState)
    (hmiss : check_cached_route cacheCfg = Option.none)
    (hdone : runSession inp = SessionResult.completed σf) :
    (render_to pool cacheCfg inp fresh).rendererUsed =
      Option.some ((pool.getLast?).getD fresh) ∧
    (render_to pool cacheCfg inp fresh).factoryInvoked = true ∧
    (render_to pool cacheCfg inp fresh).poolAfter =
      pool.dropLast ++ [(pool.getLast?).getD fresh] ∧
    (pool = [] → (render_to pool cacheCfg inp fresh).rendererUsed = Option.some fresh) := by
  refine ⟨by simp [render_to, hmiss, hdone], by simp [render_to, hmiss, hdone],
    by simp [render_to, hmiss, hdone], ?_⟩
  intro hnil
  subst hnil
  simp [render_to, hmiss, hdone]

theorem renderer_pool_pop_and_push_witness :
    (check_cached_route Option.none = Option.none ∧
      runSession sampleInput = SessionResult.completed sampleFinal) ∧
    ((render_to [10, 11] Option.none sampleInput 99).rendererUsed =
      Option.some (([10, 11].getLast?).getD 99) ∧
    (render_to [10, 11] Option.none sampleInput 99).factoryInvoked = true ∧
    (render_to [10, 11] Option.none sampleInput 99).poolAfter =
      [10, 11].dropLast ++ [([10, 11].getLast?).getD 99] ∧
    ([10, 11] = ([] : List Nat) →
      (render_to [10, 11] Option.none sampleInput 99).rendererUsed = Option.some 99)) :=
  ⟨⟨by decide, by decide⟩,
    renderer_pool_pop_and_push [10, 11] Option.none sampleInput 99 sampleFinal
      (by decide) (by decide)⟩

/-- C9: a scope reported resolved that has no entry in the scope→mount
registry is skipped: `remove` finds nothing, so no replacement chunk is
emitted, nothing is frozen, no child starts error-capturing, and the
resolution loop continues over the remaining reports exactly as if the
report were absent. -/
theorem resolved_scope_without_mount_is_skipped
    (e : ResolvedEntry) (rest : List ResolvedEntry) (σ : SessState)
    (h : lookupM σ.mapping e.scope = Option.none) :
    doResolved e σ = Option.some σ ∧ doEntries (e :: rest) σ = doEntries rest σ := by
  have h2 : doResolved e σ = Option.some σ := by
    unfold doResolved
    rw [h]
  exact ⟨h2, by simp [doEntries, h2]⟩

theorem resolved_scope_without_mount_is_skipped_witness :
    lookupM sampleFinal.mapping (5 : Nat) = Option.none ∧
    (doResolved ⟨5, true, SForest.nil⟩ sampleFinal = Option.some sampleFinal ∧
      doEntries (⟨5, true, SForest.nil⟩ :: []) sampleFinal = doEntries [] sampleFinal) :=
  ⟨by decide,
    resolved_scope_without_mount_is_skipped ⟨5, true, SForest.nil⟩ [] sampleFinal (by decide)⟩

/-- C7 (failing-input evaluation): during the initial-frame walk, a
suspense boundary (scope 2) rendered inside the placeholder subtree of
another suspense boundary (scope 1) reaches the parent-attribution branch
with a non-empty nesting stack, and the `get_mut(parent).unwrap()` panics
(modelled by `Option.none`) instead of appending scope 2 to the children
list of scope 1 — because a boundary inserts itself into the registry only
after its placeholder subtree has been rendered.  The whole session
panics instead of completing. -/
theorem nested_boundary_attribution_panics :
    walkForest [] nestedBoundaryForest initState = Option.none ∧
    runSession nestedBoundaryInput = SessionResult.panicked := by
  exact ⟨by decide, by decide⟩

end DioxusSSR

namespace DioxusSSR

/-- C2: for every well-formed session that runs to completion — (i) at
every chunk boundary the scope→mount registry holds an entry for a scope
iff that scope's placeholder has been written (the scope registered) and
not yet replaced; (ii) every scope registers at most once; (iii) every
scope with a placeholder has exactly one registration; (iv) a replacement
chunk for a scope only appears after its registration; and (v) when the
registry has drained (the resolution loop's exit condition, i.e. the
session was not cancelled), every mount handle emitted as a placeholder in
the initial frame receives exactly one `replace_placeholder` chunk
referencing it. -/
theorem registry_interval_and_replacement_pairing
    (inp : SessionInput) (σf : SessState)
    (hwf : WellFormed inp)
    (hrun : runSession inp = SessionResult.completed σf) :
    (∀ σe ∈ sessionEpochs inp, ∀ s,
      ((lookupM σe.mapping s).isSome ↔ (regC σe.trace s = 1 ∧ repC σe.trace s = 0))) ∧
    (∀ s, regC σf.trace s ≤ 1) ∧
    (∀ s, phC σf.trace s = regC σf.trace s) ∧
    (∀ a b m s, σf.trace = a ++ Ev.replaced m s :: b → Ev.registered s m ∈ a) ∧
    (σf.mapping = [] →
      ∀ s m, Ev.placeholder s m ∈ initialFrameTrace inp → repMountC σf.trace m = 1) := by
  obtain ⟨hIf, hep, hphreg, hinit, _, _⟩ := runSession_spec inp σf hwf hrun
  refine ⟨?_, ?_, ?_, ?_, ?_⟩
  · intro σe he s
    exact (hep σe he).memIff s (by simp)
  · intro s
    exact good_regC_le_one hIf.good s
  · intro s
    have h1 : phC σf.trace s ≤ 1 := good_phC_le_one hIf.good s
    have h2 : regC σf.trace s ≤ 1 := good_regC_le_one hIf.good s
    by_cases hpos : 0 < phC σf.trace s
    · obtain ⟨m, hm⟩ := phC_pos_iff.1 hpos
      have hr := hphreg s m hm
      have h3 : 0 < regC σf.trace s := regC_pos_iff.2 ⟨m, hr⟩
      omega
    · have hph0 : phC σf.trace s = 0 := by omega
      by_cases hrpos : 0 < regC σf.trace s
      · obtain ⟨m, hm⟩ := regC_pos_iff.1 hrpos
        have h4 := good_ph_of_reg hIf.good hm
        have h5 : 0 < phC σf.trace s := phC_pos_iff.2 ⟨m, h4⟩
        omega
      · omega
  · intro a b m s hsplit
    exact ((goodTrace_split hIf.good a _ b hsplit).2).1
  · intro hnil s m hph0
    have hph : Ev.placeholder s m ∈ σf.trace := hinit _ hph0
    have hreg : Ev.registered s m ∈ σf.trace := hphreg s m hph
    have hregC : regC σf.trace s = 1 := by
      have h1 := good_regC_le_one hIf.good s
      have h2 : 0 < regC σf.trace s := regC_pos_iff.2 ⟨m, hreg⟩
      omega
    have hmem := hIf.memIff s (by simp)
    have hrepne : ¬ repC σf.trace s = 0 := by
      intro h0
      have h1 : (lookupM σf.mapping s).isSome := hmem.2 ⟨hregC, h0⟩
      rw [hnil] at h1
      simp [lookupM] at h1
    have hrep1 : repC σf.trace s = 1 := by
      have := good_repC_le_one hIf.good s
      omega
    obtain ⟨m2, hm2⟩ := repC_pos_iff.1 (by rw [hrep1]; exact Nat.one_pos)
    have hreg2 := good_reg_of_rep hIf.good hm2
    have hmeq : m2 = m := good_reg_unique hIf.good hreg2 hreg
    subst hmeq
    have hge : 0 < repMountC σf.trace m2 :=
      cnt_pos_of_mem hm2 ((isRepMount_true_iff m2 _).2 ⟨s, rfl⟩)
    have hle : repMountC σf.trace m2 ≤ repC σf.trace s := by
      apply cnt_le_cnt_of_imp
      intro e he hp
      rcases (isRepMount_true_iff m2 e).1 hp with ⟨s2, rfl⟩
      have hreg3 := good_reg_of_rep hIf.good he
      have hph3 := good_ph_of_reg hIf.good hreg3
      have hs2 : s2 = s := hIf.phInj s2 s m2 hph3 hph
      simp [isRep, hs2]
    unfold repMountC at hge hle ⊢
    unfold repC at hrep1 hle
    omega

theorem registry_interval_and_replacement_pairing_witness :
    ((forestIds sampleInput.initialForest ++ entriesIds sampleInput.resolved).Nodup ∧
      runSession sampleInput = SessionResult.completed sampleFinal) ∧
    ((∀ σe ∈ sessionEpochs sampleInput, ∀ s,
      ((lookupM σe.mapping s).isSome ↔
        (regC σe.trace s = 1 ∧ repC σe.trace s = 0))) ∧
    (∀ s, regC sampleFinal.trace s ≤ 1) ∧
    (∀ s, phC sampleFinal.trace s = regC sampleFinal.trace s) ∧
    (∀ a b m s, sampleFinal.trace = a ++ Ev.replaced m s :: b → Ev.registered s m ∈ a) ∧
    (sampleFinal.mapping = [] →
      ∀ s m, Ev.placeholder s m ∈ initialFrameTrace sampleInput →
        repMountC sampleFinal.trace m = 1)) :=
  ⟨⟨by decide, by decide⟩,
    registry_interval_and_replacement_pairing sampleInput sampleFinal
      (by unfold WellFormed; decide) (by decide)⟩

/-- C3: once a suspense boundary's replacement chunk has been emitted, no
later event of the session renders that scope again in any form (no
further replacement, placeholder, registration or inline render, and no
further child attribution); and — provided the scope still downcasts to a
suspense boundary whenever reported resolved — the boundary is frozen, and
every child boundary that was recorded under it receives its own error
boundary, so later errors surface in a descendant's payload rather than
re-rendering the frozen ancestor. -/
theorem frozen_boundary_never_rerendered
    (inp : SessionInput) (σf : SessState)
    (hwf : WellFormed inp)
    (hrun : runSession inp = SessionResult.completed σf)
    (s m : Nat) (hrep : Ev.replaced m s ∈ σf.trace) :
    (∀ a b, σf.trace = a ++ Ev.replaced m s :: b →
      (∀ m2, Ev.replaced m2 s ∉ b) ∧ (∀ m2, Ev.placeholder s m2 ∉ b) ∧
        (∀ m2, Ev.registered s m2 ∉ b) ∧ Ev.inlineRender s ∉ b ∧
        (∀ c, Ev.attributed c s ∉ b)) ∧
    ((∀ e ∈ inp.resolved, e.scope = s → e.stillBoundary = true) →
      Ev.frozen s ∈ σf.trace ∧
        ∀ c, Ev.attributed c s ∈ σf.trace → Ev.errorBoundary c ∈ σf.trace) := by
  obtain ⟨hIf, _, _, _, hfz, hcap⟩ := runSession_spec inp σf hwf hrun
  refine ⟨?_, ?_⟩
  · intro a b hsplit
    exact good_after_rep hIf.good hsplit
  · intro hsb
    have h1 := hfz m s hrep hsb
    exact ⟨h1, hcap s h1⟩

theorem frozen_boundary_never_rerendered_witness :
    ((forestIds sampleInput.initialForest ++ entriesIds sampleInput.resolved).Nodup ∧
      runSession sampleInput = SessionResult.completed sampleFinal ∧
      Ev.replaced 0 1 ∈ sampleFinal.trace) ∧
    ((∀ a b, sampleFinal.trace = a ++ Ev.replaced 0 1 :: b →
      (∀ m2, Ev.replaced m2 1 ∉ b) ∧ (∀ m2, Ev.placeholder 1 m2 ∉ b) ∧
        (∀ m2, Ev.registered 1 m2 ∉ b) ∧ Ev.inlineRender 1 ∉ b ∧
        (∀ c, Ev.attributed c 1 ∉ b)) ∧
    ((∀ e ∈ sampleInput.resolved, e.scope = 1 → e.stillBoundary = true) →
      Ev.frozen 1 ∈ sampleFinal.trace ∧
        ∀ c, Ev.attributed c 1 ∈ sampleFinal.trace →
          Ev.errorBoundary c ∈ sampleFinal.trace)) :=
  ⟨⟨by decide, by decide, by decide⟩,
    frozen_boundary_never_rerendered sampleInput sampleFinal (by unfold WellFormed; decide)
      (by decide) 1 0 (by decide)⟩

end DioxusSSR
